import Mathlib

/-!
RingBuffer: a fixed-capacity circular buffer.

Shallow embedding of `src/inc/ringBuffer.hpp` (class template `RingBuffer<T>`).

Modelling conventions.

* `std::size_t` fields and arguments are natural numbers.  The index sums of the
  class stay below `2 * total`, so they cannot wrap for any array that fits in
  an address space.  The `int` counter of `push_n(const std::vector<T>&)` is a
  32-bit signed integer; it is reached by a vector of 2 GiB, so its overflow is
  modelled.  The versions `end_add_64`, `start_add_64` and `at_slot_64` compute
  the index sums modulo `2^64` and are compared with the ones over the naturals.
* `std::unique_ptr<T[]> pData` is an exclusively owned array, modelled by value:
  `none` is `nullptr`, `some l` is an allocated array whose slots are `l`.
* The reference parameter of copy assignment may denote the object assigned to
  (`b = b`); `Arg` says which, and reads through it see the writes already made.
* Every member function that can leave defined behaviour returns in `Except Fault`:
  the exception thrown by `at`, and the undefined behaviours the body can reach
  (`%` with a zero divisor, subscripting `nullptr` or past the array, signed
  overflow).
-/

namespace RingBuf

/-! ## Definitions: the class and its members -/

/-- Ways in which a member function can fail to return normally. -/
inductive Fault where
  /-- `std::out_of_range` thrown by `at`. -/
  | out_of_range
  /-- Evaluation of `x % total` with `total == 0`. -/
  | div_by_zero
  /-- Subscript `pData[i]` while `pData == nullptr`. -/
  | null_deref
  /-- Subscript `pData[i]` with `i` not below the number of allocated slots. -/
  | out_of_bounds
  /-- Increment of an `int` that already holds `INT_MAX`. -/
  | int_overflow
  deriving DecidableEq

deriving instance DecidableEq for Except

/-- The private data members of `RingBuffer<T>` (`end` is a keyword, hence `end_`). -/
structure RingBuffer (T : Type) where
  total : Nat
  curSize : Nat
  start : Nat
  end_ : Nat
  pData : Option (List T)
  deriving DecidableEq

/-- Largest value of the 32-bit `int` used as a counter by `push_n(const std::vector<T>&)`. -/
def INT_MAX : Int := 2147483647

/-- Conversion of an `int` to `std::size_t` (64 bit), as done by `return pushed;`. -/
def size_t_of_int (i : Int) : Nat := (i % 18446744073709551616).toNat

/-- Conversion of a `bool` to `std::size_t`, as done by `return true;` in `push(const T&)`. -/
def size_t_of_bool (c : Bool) : Nat := if c then 1 else 0

namespace RingBuffer

variable {T : Type}

/-- Read of `pData[i]`. -/
def readSlot (b : RingBuffer T) (i : Nat) : Except Fault T :=
  match b.pData with
  | none => .error .null_deref
  | some l =>
    match l[i]? with
    | some v => .ok v
    | none => .error .out_of_bounds

/-- Assignment `pData[i] = v`. -/
def writeSlot (b : RingBuffer T) (i : Nat) (v : T) : Except Fault (RingBuffer T) :=
  match b.pData with
  | none => .error .null_deref
  | some l =>
    if i < l.length then .ok { b with pData := some (l.set i v) }
    else .error .out_of_bounds

/-- Private `end_add(n)`: advances the tail cursor; returns the new `end`. -/
def end_add (n : Nat) (b : RingBuffer T) : Except Fault (Nat × RingBuffer T) :=
  if b.curSize + n ≤ b.total then
    if b.total = 0 then .error .div_by_zero
    else
      let b1 := { b with end_ := (b.end_ + n) % b.total }
      let b2 := { b1 with curSize := b1.curSize + n }
      .ok (b2.end_, b2)
  else .ok (b.end_, b)

/-- Private `start_add(n)`: advances the head cursor; returns the new `start`. -/
def start_add (n : Nat) (b : RingBuffer T) : Except Fault (Nat × RingBuffer T) :=
  if b.curSize ≥ n then
    if b.total = 0 then .error .div_by_zero
    else
      let b1 := { b with start := (b.start + n) % b.total }
      let b2 := { b1 with curSize := b1.curSize - n }
      .ok (b2.start, b2)
  else .ok (b.start, b)

/-- Default constructor `RingBuffer()`: the member initialisers of the class. -/
def ctor_default : RingBuffer T :=
  { total := 0, curSize := 0, start := 0, end_ := 0, pData := none }

/-- Sized constructor `RingBuffer(_total)`; `make_unique<T[]>` value-initialises the slots. -/
def ctor_sized [Inhabited T] (_total : Nat) : RingBuffer T :=
  { start := 0, end_ := 0, curSize := 0, total := _total,
    pData := some (List.replicate _total default) }

/-- Member `push(const T&)`, whose return type is `std::size_t`. -/
def push (_element : T) (b : RingBuffer T) : Except Fault (Nat × RingBuffer T) :=
  if b.curSize < b.total then
    match writeSlot b b.end_ _element with
    | .error e => .error e
    | .ok b1 =>
      match end_add 1 b1 with
      | .error e => .error e
      | .ok (_, b2) => .ok (size_t_of_bool true, b2)
  else .ok (size_t_of_bool false, b)

/-- Member `push(const T&&)`, whose return type is `bool`. -/
def push_rv (_element : T) (b : RingBuffer T) : Except Fault (Bool × RingBuffer T) :=
  if b.curSize < b.total then
    match writeSlot b b.end_ _element with
    | .error e => .error e
    | .ok b1 =>
      match end_add 1 b1 with
      | .error e => .error e
      | .ok (_, b2) => .ok (true, b2)
  else .ok (false, b)

/-- Loop of `push_n(const std::vector<T>&)`; `pushed` is the `int` counter. -/
def push_n_loop : List T → Int → RingBuffer T → Except Fault (Nat × RingBuffer T)
  | [], pushed, b => .ok (size_t_of_int pushed, b)
  | element :: rest, pushed, b =>
    match push element b with
    | .error e => .error e
    | .ok (r, b1) =>
      if r = 0 then .ok (size_t_of_int pushed, b1)
      else if pushed = INT_MAX then .error .int_overflow
      else push_n_loop rest (pushed + 1) b1

/-- Member `push_n(const std::vector<T>&)`. -/
def push_n (_elements : List T) (b : RingBuffer T) : Except Fault (Nat × RingBuffer T) :=
  push_n_loop _elements 0 b

/-- Loop of `push_n(const T*, std::size_t)`: the first argument counts the iterations
that remain, `_n - pushed`; `_elements` holds the slots of the array pointed to. -/
def push_n_ptr_loop (_elements : List T) :
    Nat → Nat → RingBuffer T → Except Fault (Nat × RingBuffer T)
  | 0, pushed, b => .ok (pushed, b)
  | k + 1, pushed, b =>
    match _elements[pushed]? with
    | none => .error .out_of_bounds
    | some x =>
      match push x b with
      | .error e => .error e
      | .ok (r, b1) =>
        if r = 0 then .ok (pushed, b1)
        else push_n_ptr_loop _elements k (pushed + 1) b1

/-- Member `push_n(const T*, std::size_t)`. -/
def push_n_ptr (_elements : List T) (_n : Nat) (b : RingBuffer T) :
    Except Fault (Nat × RingBuffer T) :=
  push_n_ptr_loop _elements _n 0 b

/-- Member `pop(_n)`. -/
def pop (_n : Nat) (b : RingBuffer T) : Except Fault (Bool × RingBuffer T) :=
  if b.curSize ≥ _n then
    match start_add _n b with
    | .error e => .error e
    | .ok (_, b1) => .ok (true, b1)
  else .ok (false, b)

/-- The reference returned by `at(_index)`, as the physical slot `_real` it designates. -/
def at_slot (_index : Nat) (b : RingBuffer T) : Except Fault Nat :=
  if _index ≥ b.curSize then .error .out_of_range
  else if b.total = 0 then .error .div_by_zero
  else
    let _real := (b.start + _index) % b.total
    match b.pData with
    | none => .error .null_deref
    | some l => if _real < l.length then .ok _real else .error .out_of_bounds

/-- Member `at(_index)` used as a value: the element read through the returned reference. -/
def at_ (_index : Nat) (b : RingBuffer T) : Except Fault T :=
  match at_slot _index b with
  | .error e => .error e
  | .ok _real => readSlot b _real

/-- Member `at(_index)` used as an assignment target: `at(_index) = v`. -/
def at_assign (_index : Nat) (v : T) (b : RingBuffer T) : Except Fault (RingBuffer T) :=
  match at_slot _index b with
  | .error e => .error e
  | .ok _real => writeSlot b _real v

/-- Member `operator[]`, read through the returned reference. -/
def op_index (_index : Nat) (b : RingBuffer T) : Except Fault T := at_ _index b

/-- Member `size()`. -/
def size (b : RingBuffer T) : Nat := b.curSize

/-- Member `remain()`; the subtraction is exact whenever `curSize <= total`. -/
def remain (b : RingBuffer T) : Nat := b.total - b.curSize

/-- Member `clear()`. -/
def clear (b : RingBuffer T) : RingBuffer T :=
  { b with start := 0, end_ := 0, curSize := 0 }

/-- The loop `for (i = 0; i < curSize; i++) at(i) = ring.at(i);` of the copy constructor,
where `ring` is an object other than the one under construction; the first argument
counts the iterations that remain, `curSize - i`. -/
def copy_loop (ring : RingBuffer T) : Nat → Nat → RingBuffer T → Except Fault (RingBuffer T)
  | 0, _, this => .ok this
  | k + 1, i, this =>
    match at_ i ring with
    | .error e => .error e
    | .ok v =>
      match at_assign i v this with
      | .error e => .error e
      | .ok this1 => copy_loop ring k (i + 1) this1

/-- Copy constructor `RingBuffer(const RingBuffer&)`. -/
def ctor_copy [Inhabited T] (ring : RingBuffer T) : Except Fault (RingBuffer T) :=
  let this0 : RingBuffer T :=
    { total := ring.total, curSize := ring.curSize, start := ring.start, end_ := ring.end_,
      pData := none }
  let this1 := { this0 with pData := some (List.replicate this0.total default) }
  copy_loop ring this1.curSize 0 this1

/-- What the reference parameter `ring` of an assignment operator denotes: another
object, given by its state, or the very object assigned to, as in `b = b`. -/
inductive Arg (T : Type) where
  | other (ring : RingBuffer T)
  | self
  deriving DecidableEq

/-- The state read through the reference `ring` while the object assigned to is in state
`this`: for `b = b` every read of `ring` sees what has been written to `this` so far. -/
def Arg.deref (this : RingBuffer T) : Arg T → RingBuffer T
  | .other ring => ring
  | .self => this

/-- The loop `for (i = 0; i < curSize; i++) at(i) = ring.at(i);` of copy assignment; the
first argument counts the iterations that remain, `curSize - i`. -/
def assign_loop (ring : Arg T) : Nat → Nat → RingBuffer T → Except Fault (RingBuffer T)
  | 0, _, this => .ok this
  | k + 1, i, this =>
    match at_ i (ring.deref this) with
    | .error e => .error e
    | .ok v =>
      match at_assign i v this with
      | .error e => .error e
      | .ok this1 => assign_loop ring k (i + 1) this1

/-- Copy assignment `operator=(const RingBuffer&)`, for another object and for
self-assignment alike: the members are copied, the array is replaced by a fresh one, and
only then does the loop read `ring.at(i)`. -/
def assign_copy [Inhabited T] (this : RingBuffer T) (ring : Arg T) :
    Except Fault (RingBuffer T) :=
  let this1 := { this with start := (ring.deref this).start }
  let this2 := { this1 with end_ := (ring.deref this1).end_ }
  let this3 := { this2 with curSize := (ring.deref this2).curSize }
  let this4 := { this3 with total := (ring.deref this3).total }
  let this5 := { this4 with pData := some (List.replicate this4.total default) }
  assign_loop ring this5.curSize 0 this5

/-- Move constructor `RingBuffer(RingBuffer&&)`: the new object and `ring` afterwards. -/
def ctor_move (ring : RingBuffer T) : RingBuffer T × RingBuffer T :=
  let this0 : RingBuffer T :=
    { total := ring.total, curSize := ring.curSize, start := ring.start, end_ := ring.end_,
      pData := none }
  let this1 := { this0 with pData := ring.pData }
  let ring1 := { ring with pData := none }
  let ring2 := { ring1 with start := 0 }
  let ring3 := { ring2 with end_ := 0 }
  let ring4 := { ring3 with curSize := 0 }
  (this1, ring4)

/-- Move assignment `operator=(RingBuffer&&)`, for `this` distinct from `ring`:
the assigned object and `ring` afterwards.  (`a = std::move(a)` copies each member onto
itself and hands the array back to its owner, so it leaves the object as it was.) -/
def assign_move (this ring : RingBuffer T) : RingBuffer T × RingBuffer T :=
  let this1 := { this with start := ring.start }
  let this2 := { this1 with end_ := ring.end_ }
  let this3 := { this2 with curSize := ring.curSize }
  let this4 := { this3 with total := ring.total }
  let this5 := { this4 with pData := ring.pData }
  let ring1 := { ring with pData := none }
  (this5, ring1)

/-! ## Definitions: call sequences, invariant, reachable states -/

/-- A call of one of the state-changing public members. -/
inductive Call (T : Type) where
  | push (x : T)
  | push_rv (x : T)
  | pop (n : Nat)
  | clear
  deriving DecidableEq

/-- Effect of one call on the buffer (the returned value is dropped). -/
def Call.exec : Call T → RingBuffer T → Except Fault (RingBuffer T)
  | .push x, b => (RingBuffer.push x b).map Prod.snd
  | .push_rv x, b => (RingBuffer.push_rv x b).map Prod.snd
  | .pop n, b => (RingBuffer.pop n b).map Prod.snd
  | .clear, b => .ok (RingBuffer.clear b)

/-- Effect of a sequence of calls, made in order. -/
def run : List (Call T) → RingBuffer T → Except Fault (RingBuffer T)
  | [], b => .ok b
  | c :: cs, b =>
    match c.exec b with
    | .error e => .error e
    | .ok b1 => run cs b1

/-- Calls `push(const T&)` on each element in order and collects the returned values. -/
def push_each : List T → RingBuffer T → Except Fault (List Nat × RingBuffer T)
  | [], b => .ok ([], b)
  | x :: xs, b =>
    match push x b with
    | .error e => .error e
    | .ok (r, b1) =>
      match push_each xs b1 with
      | .error e => .error e
      | .ok (rs, b2) => .ok (r :: rs, b2)

/-- Calls `push(const T&&)` on each element in order and collects the returned values. -/
def push_rv_each : List T → RingBuffer T → Except Fault (List Bool × RingBuffer T)
  | [], b => .ok ([], b)
  | x :: xs, b =>
    match push_rv x b with
    | .error e => .error e
    | .ok (r, b1) =>
      match push_rv_each xs b1 with
      | .error e => .error e
      | .ok (rs, b2) => .ok (r :: rs, b2)

/-- Representation invariant of a buffer that owns its array. -/
structure Inv (b : RingBuffer T) : Prop where
  size_le : b.curSize ≤ b.total
  start_lt : 0 < b.total → b.start < b.total
  end_eq : 0 < b.total → b.end_ = (b.start + b.curSize) % b.total
  store : 0 < b.total → ∃ l, b.pData = some l ∧ l.length = b.total

/-- The buffer `b` holds exactly the logical sequence `xs`. -/
def Models (b : RingBuffer T) (xs : List T) : Prop :=
  Inv b ∧ b.curSize = xs.length ∧ ∀ i v, xs[i]? = some v → at_ i b = .ok v

/-- The object holds an array of `total` slots (whenever `total > 0`): it has not given
its array away. -/
def Owning (b : RingBuffer T) : Prop :=
  0 < b.total → ∃ l, b.pData = some l ∧ l.length = b.total

/-- Facts about the four counters alone, which do not depend on the array. -/
structure Wf (b : RingBuffer T) : Prop where
  size_le : b.curSize ≤ b.total
  start_lt : 0 < b.total → b.start < b.total
  end_eq : 0 < b.total → b.end_ = (b.start + b.curSize) % b.total

/-- States an object can be in: built by a constructor, assigned from a reachable object
(or from itself), left behind as the source of a move construction or of a move
assignment, and driven from any of these through its own public members (`at_assign` is
a write through the reference that `at` or `operator[]` returns). -/
inductive Reachable [Inhabited T] : RingBuffer T → Prop where
  | ctor_default : Reachable ctor_default
  | ctor_sized (n : Nat) : Reachable (ctor_sized n)
  | ctor_copy (ring c : RingBuffer T) : Reachable ring → ctor_copy ring = .ok c → Reachable c
  | ctor_move (ring : RingBuffer T) : Reachable ring → Reachable (ctor_move ring).1
  | moved_by_ctor (ring : RingBuffer T) : Reachable ring → Reachable (ctor_move ring).2
  | assign_copy (this ring c : RingBuffer T) :
      Reachable ring → assign_copy this (.other ring) = .ok c → Reachable c
  | assign_self (b c : RingBuffer T) : Reachable b → assign_copy b .self = .ok c → Reachable c
  | assign_move (this ring : RingBuffer T) : Reachable ring → Reachable (assign_move this ring).1
  | moved_by_assign (this ring : RingBuffer T) :
      Reachable ring → Reachable (assign_move this ring).2
  | push (x : T) (b : RingBuffer T) (r : Nat) (b1 : RingBuffer T) :
      Reachable b → push x b = .ok (r, b1) → Reachable b1
  | push_rv (x : T) (b : RingBuffer T) (r : Bool) (b1 : RingBuffer T) :
      Reachable b → push_rv x b = .ok (r, b1) → Reachable b1
  | push_n (xs : List T) (b : RingBuffer T) (r : Nat) (b1 : RingBuffer T) :
      Reachable b → push_n xs b = .ok (r, b1) → Reachable b1
  | push_n_ptr (xs : List T) (n : Nat) (b : RingBuffer T) (r : Nat) (b1 : RingBuffer T) :
      Reachable b → push_n_ptr xs n b = .ok (r, b1) → Reachable b1
  | pop (n : Nat) (b : RingBuffer T) (r : Bool) (b1 : RingBuffer T) :
      Reachable b → pop n b = .ok (r, b1) → Reachable b1
  | at_assign (i : Nat) (v : T) (b b1 : RingBuffer T) :
      Reachable b → at_assign i v b = .ok b1 → Reachable b1
  | clear (b : RingBuffer T) : Reachable b → Reachable (clear b)

/-- Example state: `RingBuffer<int> b(1); b.push(5);` (a full buffer). -/
def ex_full : RingBuffer Nat :=
  { total := 1, curSize := 1, start := 0, end_ := 0, pData := some [5] }

/-- Example state: `RingBuffer<int> b(3); b.push(7); b.pop();` (empty, head at slot 1). -/
def ex_emptied : RingBuffer Nat :=
  { total := 3, curSize := 0, start := 1, end_ := 1, pData := some [7, 0, 0] }

/-- Example state: `RingBuffer<int> b(3); b.push(7); b.push(8); b.pop();`. -/
def ex_shifted : RingBuffer Nat :=
  { total := 3, curSize := 1, start := 1, end_ := 2, pData := some [7, 8, 0] }

/-- Example state: `RingBuffer<int> b(4); b.push(7);`. -/
def ex_one : RingBuffer Nat :=
  { total := 4, curSize := 1, start := 0, end_ := 1, pData := some [7, 0, 0, 0] }

/-- Example state: the source `a` after `RingBuffer<int> a(3); RingBuffer<int> b(std::move(a));`. -/
def ex_moved_from : RingBuffer Nat :=
  { total := 3, curSize := 0, start := 0, end_ := 0, pData := none }

/-- Example state: the source `src` after `RingBuffer<int> src(3), dest(3); src.push(7);
src.push(8); src.pop(); dest = std::move(src);`. -/
def ex_move_assigned : RingBuffer Nat :=
  { total := 3, curSize := 1, start := 1, end_ := 2, pData := none }

/-- Example state: `RingBuffer<int> b(3); b.push(7); b.push(8); b.pop(); b = b;`. -/
def ex_self_assigned : RingBuffer Nat :=
  { total := 3, curSize := 1, start := 1, end_ := 2, pData := some [0, 0, 0] }

/-! ## Definitions: reference behaviours and observations -/

/-- Written from the words of the specification of `push_n`: the elements are inserted
one at a time, in sequence order, stopping at the first failed single push; the result
is the number of elements inserted (`count` is the number inserted so far). -/
def push_in_order : List T → Nat → RingBuffer T → Except Fault (Nat × RingBuffer T)
  | [], count, b => .ok (count, b)
  | x :: rest, count, b =>
    match push x b with
    | .error e => .error e
    | .ok (r, b1) =>
      if r = 0 then .ok (count, b1)
      else push_in_order rest (count + 1) b1

/-- Cursor invariant of the specification: `tail == (head + count) mod capacity`. -/
def CursorInv (b : RingBuffer T) : Prop := b.end_ = (b.start + b.curSize) % b.total

/-- Number of values of a 64-bit `std::size_t`. -/
def SIZE_T_RANGE : Nat := 18446744073709551616

/-- Sum of two `std::size_t` values as the machine computes it, modulo `2^64`. -/
def add_size_t (a b : Nat) : Nat := (a + b) % SIZE_T_RANGE

/-- The members of `b` are values of a 64-bit `std::size_t`. -/
def FitsSizeT (b : RingBuffer T) : Prop :=
  b.total < SIZE_T_RANGE ∧ b.curSize < SIZE_T_RANGE ∧ b.start < SIZE_T_RANGE ∧
    b.end_ < SIZE_T_RANGE

/-- Private `end_add(n)` with the sums `curSize + n` and `end + n` computed in 64-bit
`std::size_t`. -/
def end_add_64 (n : Nat) (b : RingBuffer T) : Except Fault (Nat × RingBuffer T) :=
  if add_size_t b.curSize n ≤ b.total then
    if b.total = 0 then .error .div_by_zero
    else
      let b1 := { b with end_ := (add_size_t b.end_ n) % b.total }
      let b2 := { b1 with curSize := add_size_t b1.curSize n }
      .ok (b2.end_, b2)
  else .ok (b.end_, b)

/-- Private `start_add(n)` with the sum `start + n` computed in 64-bit `std::size_t`
(the difference `curSize - n` is guarded by `curSize >= n`). -/
def start_add_64 (n : Nat) (b : RingBuffer T) : Except Fault (Nat × RingBuffer T) :=
  if b.curSize ≥ n then
    if b.total = 0 then .error .div_by_zero
    else
      let b1 := { b with start := (add_size_t b.start n) % b.total }
      let b2 := { b1 with curSize := b1.curSize - n }
      .ok (b2.start, b2)
  else .ok (b.start, b)

/-- The slot designated by `at(_index)` with the sum `start + _index` computed in 64-bit
`std::size_t`. -/
def at_slot_64 (_index : Nat) (b : RingBuffer T) : Except Fault Nat :=
  if _index ≥ b.curSize then .error .out_of_range
  else if b.total = 0 then .error .div_by_zero
  else
    let _real := (add_size_t b.start _index) % b.total
    match b.pData with
    | none => .error .null_deref
    | some l => if _real < l.length then .ok _real else .error .out_of_bounds

/-- Example state with the largest capacity of the 64-bit bound, `2^63`, full, with the
cursors on the last slot (the array itself is left out). -/
def ex_huge : RingBuffer Nat :=
  { total := 9223372036854775808, curSize := 9223372036854775808,
    start := 9223372036854775807, end_ := 9223372036854775807, pData := none }

/-- Logical contents of the buffer: `[at(0), ..., at(size() - 1)]`. -/
def contents (b : RingBuffer T) : List (Except Fault T) :=
  (List.range (size b)).map (fun i => at_ i b)

/-- Value returned by a call, with the state it leaves: `some c` for the `bool` of `push`
and `pop` (the `std::size_t` of `push(const T&)` read as a truth value), `none` for
`clear`, which returns nothing. -/
def Call.call : Call T → RingBuffer T → Except Fault (Option Bool × RingBuffer T)
  | .push x, b => (RingBuffer.push x b).map (fun p => (some (decide (p.1 ≠ 0)), p.2))
  | .push_rv x, b => (RingBuffer.push_rv x b).map (fun p => (some p.1, p.2))
  | .pop n, b => (RingBuffer.pop n b).map (fun p => (some p.1, p.2))
  | .clear, b => .ok (none, RingBuffer.clear b)

/-- For each call of a sequence, the value it returns and the contents it leaves. -/
def trace : List (Call T) → RingBuffer T →
    Except Fault (List (Option Bool × List (Except Fault T)))
  | [], _ => .ok []
  | c :: cs, b =>
    match c.call b with
    | .error e => .error e
    | .ok (r, b1) =>
      match trace cs b1 with
      | .error e => .error e
      | .ok rest => .ok ((r, contents b1) :: rest)

/-- Written from the words of the claim: one call on the bounded FIFO list of capacity
`C`.  `push(x)` appends `x` and returns true iff the length is below `C` (else leaves the
list and returns false); `pop(n)` drops the first `n` elements and returns true iff
`n <= length` (else leaves the list and returns false); `clear()` yields the empty
list. -/
def list_model_step (C : Nat) : Call T → List T → Option Bool × List T
  | .push x, xs => if xs.length < C then (some true, xs ++ [x]) else (some false, xs)
  | .push_rv x, xs => if xs.length < C then (some true, xs ++ [x]) else (some false, xs)
  | .pop n, xs => if n ≤ xs.length then (some true, xs.drop n) else (some false, xs)
  | .clear, _ => (none, [])

/-- List model: for each call of a sequence, the value returned and the list left. -/
def list_model_trace (C : Nat) : List (Call T) → List T → List (Option Bool × List T)
  | [], _ => []
  | c :: cs, xs =>
    (list_model_step C c xs) :: list_model_trace C cs (list_model_step C c xs).2

/-- A call of a public member, with its arguments. -/
inductive Cmd (T : Type) where
  | push (x : T)
  | push_rv (x : T)
  | push_n (xs : List T)
  | push_n_ptr (xs : List T) (n : Nat)
  | pop (n : Nat)
  | clear
  | size
  | remain
  | at_ (i : Nat)
  | op_index (i : Nat)
  deriving DecidableEq

/-- What a call hands back to its caller. -/
inductive Out (T : Type) where
  /-- A `std::size_t`. -/
  | count (n : Nat)
  /-- A `bool`. -/
  | flag (c : Bool)
  /-- The element read through the reference that `at` returns. -/
  | elem (v : T)
  /-- Nothing (`void`). -/
  | done
  deriving DecidableEq

/-- One call: what it hands back and the state it leaves. -/
def Cmd.step : Cmd T → RingBuffer T → Except Fault (Out T × RingBuffer T)
  | .push x, b => (RingBuffer.push x b).map (fun p => (Out.count p.1, p.2))
  | .push_rv x, b => (RingBuffer.push_rv x b).map (fun p => (Out.flag p.1, p.2))
  | .push_n xs, b => (RingBuffer.push_n xs b).map (fun p => (Out.count p.1, p.2))
  | .push_n_ptr xs n, b => (RingBuffer.push_n_ptr xs n b).map (fun p => (Out.count p.1, p.2))
  | .pop n, b => (RingBuffer.pop n b).map (fun p => (Out.flag p.1, p.2))
  | .clear, b => .ok (Out.done, RingBuffer.clear b)
  | .size, b => .ok (Out.count (RingBuffer.size b), b)
  | .remain, b => .ok (Out.count (RingBuffer.remain b), b)
  | .at_ i, b => (RingBuffer.at_ i b).map (fun v => (Out.elem v, b))
  | .op_index i, b => (RingBuffer.op_index i b).map (fun v => (Out.elem v, b))

/-- What the caller sees of one call that stays within defined behaviour: the value
handed back, or the `std::out_of_range` thrown by `at`. -/
inductive Seen (T : Type) where
  | returned (o : Out T)
  | thrown
  deriving DecidableEq

/-- Everything a caller observes of a sequence of calls, call by call.  A thrown
`out_of_range` is caught by the caller, who goes on with the buffer as it was (`at` is
`const`).  The result is `none` as soon as a call has undefined behaviour: the language
then fixes nothing of what the caller sees, so two such runs need not agree. -/
def observe : List (Cmd T) → RingBuffer T → Option (List (Seen T))
  | [], _ => some []
  | c :: cs, b =>
    match c.step b with
    | .ok (o, b1) => (observe cs b1).map (fun rest => Seen.returned o :: rest)
    | .error e =>
      if e = .out_of_range then (observe cs b).map (fun rest => Seen.thrown :: rest)
      else none

/-- Two buffers that satisfy the representation invariant and agree on capacity, on
count and on every logical element; head position and slots outside the live range are
free to differ. -/
def SameLogical (b1 b2 : RingBuffer T) : Prop :=
  Inv b1 ∧ Inv b2 ∧ b1.total = b2.total ∧ size b1 = size b2 ∧
    ∀ i, i < size b1 → at_ i b1 = at_ i b2

/-- Example state: `RingBuffer<int> b(3); b.push(9); b.push(7); b.pop(); b[0] = 8;
b.push(0);`.  It holds the logical sequence 8, 0 with the head at slot 1, and the popped
9 is still in slot 0. -/
def ex_stale_a : RingBuffer Nat :=
  { total := 3, curSize := 2, start := 1, end_ := 0, pData := some [9, 8, 0] }

/-- Example state: `RingBuffer<int> b(3); b.push(8); b.push(0);`, which holds the
logical sequence 8, 0 with the head at slot 0. -/
def ex_stale_b : RingBuffer Nat :=
  { total := 3, curSize := 2, start := 0, end_ := 2, pData := some [8, 0, 0] }
/-! ## Theorems: arithmetic and single calls -/

theorem mod_add_inj {n s i j : Nat} (hi : i < n) (hj : j < n)
    (h : (s + i) % n = (s + j) % n) : i = j := by
  have h1 : i % n = j % n := Nat.ModEq.add_left_cancel' s h
  rwa [Nat.mod_eq_of_lt hi, Nat.mod_eq_of_lt hj] at h1

theorem at_of_inv {b : RingBuffer T} {l : List T} {i : Nat} (hI : Inv b)
    (hl : b.pData = some l) (hi : i < b.curSize) (v : T) :
    at_ i b = .ok v ↔ l[(b.start + i) % b.total]? = some v := by
  have hpos : 0 < b.total := by have := hI.size_le; omega
  obtain ⟨l', hl', hlen⟩ := hI.store hpos
  rw [hl] at hl'; cases hl'
  have hlt : (b.start + i) % b.total < l.length := by
    rw [hlen]; exact Nat.mod_lt _ hpos
  simp only [at_, at_slot, readSlot, hl]
  rw [if_neg (by omega), if_neg (by omega)]
  simp only [hlt, if_true]
  rw [List.getElem?_eq_getElem hlt]
  simp

theorem at_out_of_range {b : RingBuffer T} {i : Nat} (hi : b.curSize ≤ i) :
    at_ i b = .error .out_of_range := by
  simp [at_, at_slot, hi]

theorem push_of_inv {b : RingBuffer T} {l : List T} (hI : Inv b) (hl : b.pData = some l)
    (hlt : b.curSize < b.total) (x : T) :
    push x b = .ok (1, { b with pData := some (l.set b.end_ x),
                                end_ := (b.end_ + 1) % b.total,
                                curSize := b.curSize + 1 }) := by
  have hpos : 0 < b.total := by omega
  obtain ⟨l', hl', hlen⟩ := hI.store hpos
  rw [hl] at hl'; cases hl'
  have he : b.end_ < l.length := by
    rw [hlen, hI.end_eq hpos]; exact Nat.mod_lt _ hpos
  have h1 : b.curSize + 1 ≤ b.total := hlt
  have h0 : b.total ≠ 0 := by omega
  simp [push, writeSlot, end_add, hl, hlt, he, size_t_of_bool, h1, h0]

theorem push_full {b : RingBuffer T} (h : b.total ≤ b.curSize) (x : T) :
    push x b = .ok (0, b) := by
  simp [push, size_t_of_bool, Nat.not_lt.mpr h]

theorem push_rv_eq_push (x : T) (b : RingBuffer T) :
    push_rv x b = (push x b).map (fun p => (decide (p.1 ≠ 0), p.2)) := by
  unfold push_rv push
  by_cases hlt : b.curSize < b.total
  · simp only [hlt, if_true]
    rcases hw : writeSlot b b.end_ x with e | b1
    · rfl
    · rcases he : end_add 1 b1 with e | ⟨r, b2⟩
      · simp [Except.map, he]
      · simp [Except.map, he, size_t_of_bool]
  · simp [hlt, Except.map, size_t_of_bool]

theorem pop_of_pos {b : RingBuffer T} (hpos : 0 < b.total) {n : Nat} (hn : n ≤ b.curSize) :
    pop n b = .ok (true, { b with start := (b.start + n) % b.total,
                                  curSize := b.curSize - n }) := by
  have h0 : b.total ≠ 0 := by omega
  simp [pop, start_add, hn, h0]

theorem pop_short {b : RingBuffer T} {n : Nat} (hn : b.curSize < n) :
    pop n b = .ok (false, b) := by
  simp [pop, Nat.not_le.mpr hn]

theorem pop_zero_capacity {b : RingBuffer T} (h0 : b.total = 0) {n : Nat}
    (hn : n ≤ b.curSize) : pop n b = .error .div_by_zero := by
  simp [pop, start_add, hn, h0]

theorem inv_ctor_default : Inv (ctor_default : RingBuffer T) :=
  ⟨Nat.le_refl _, fun h => absurd h (Nat.lt_irrefl 0), fun h => absurd h (Nat.lt_irrefl 0),
    fun h => absurd h (Nat.lt_irrefl 0)⟩

theorem inv_ctor_sized [Inhabited T] (n : Nat) : Inv (ctor_sized n : RingBuffer T) := by
  refine ⟨Nat.zero_le _, fun h => h, fun h => ?_, fun _ => ⟨_, rfl, ?_⟩⟩
  · simp [ctor_sized]
  · simp [ctor_sized]

theorem inv_clear {b : RingBuffer T} (hI : Inv b) : Inv (clear b) := by
  refine ⟨Nat.zero_le _, fun h => h, fun h => ?_, fun h => hI.store h⟩
  simp [clear]

theorem models_inv {b : RingBuffer T} {xs : List T} (h : Models b xs) : Inv b := h.1

theorem models_push {b : RingBuffer T} {xs : List T} (hM : Models b xs)
    (hlt : xs.length < b.total) (x : T) :
    ∃ b1, push x b = .ok (1, b1) ∧ Models b1 (xs ++ [x]) ∧ b1.total = b.total := by
  obtain ⟨hI, hsz, hat⟩ := hM
  have hpos : 0 < b.total := by omega
  obtain ⟨l, hl, hlen⟩ := hI.store hpos
  have hcs : b.curSize < b.total := by omega
  refine ⟨_, push_of_inv hI hl hcs x, ⟨⟨?_, ?_, ?_, ?_⟩, ?_, ?_⟩, rfl⟩
  · exact hcs
  · exact hI.start_lt
  · intro _
    show (b.end_ + 1) % b.total = (b.start + (b.curSize + 1)) % b.total
    rw [hI.end_eq hpos, Nat.mod_add_mod, Nat.add_assoc]
  · intro _
    exact ⟨_, rfl, by simp [hlen]⟩
  · simp [hsz]
  · intro i v hv
    have hi : i < xs.length + 1 := by
      have := (List.getElem?_eq_some_iff.mp hv).1
      simpa using this
    have hI1 : Inv ({ b with pData := some (l.set b.end_ x),
                             end_ := (b.end_ + 1) % b.total,
                             curSize := b.curSize + 1 } : RingBuffer T) := by
      refine ⟨hcs, hI.start_lt, fun _ => ?_, fun _ => ⟨_, rfl, by simp [hlen]⟩⟩
      show (b.end_ + 1) % b.total = (b.start + (b.curSize + 1)) % b.total
      rw [hI.end_eq hpos, Nat.mod_add_mod, Nat.add_assoc]
    rw [at_of_inv hI1 rfl (by show i < b.curSize + 1; omega)]
    show (l.set b.end_ x)[(b.start + i) % b.total]? = some v
    by_cases hix : i < xs.length
    · rw [List.getElem?_append_left hix] at hv
      have h1 := (at_of_inv hI hl (by omega) v).mp (hat i v hv)
      have hne : b.end_ ≠ (b.start + i) % b.total := by
        rw [hI.end_eq hpos]
        intro heq
        have := mod_add_inj (by omega) (by omega) heq
        omega
      rw [List.getElem?_set_ne hne]
      exact h1
    · have hieq : i = xs.length := by omega
      subst hieq
      simp at hv
      subst hv
      have he : b.end_ = (b.start + xs.length) % b.total := by
        rw [hI.end_eq hpos, hsz]
      rw [← he, List.getElem?_set_self]
      rw [hlen, he]
      exact Nat.mod_lt _ hpos

theorem models_pop {b : RingBuffer T} {xs : List T} (hM : Models b xs)
    (hpos : 0 < b.total) {n : Nat} (hn : n ≤ xs.length) :
    ∃ b1, pop n b = .ok (true, b1) ∧ Models b1 (xs.drop n) ∧ b1.total = b.total := by
  obtain ⟨hI, hsz, hat⟩ := hM
  obtain ⟨l, hl, hlen⟩ := hI.store hpos
  have hI1 : Inv ({ b with start := (b.start + n) % b.total,
                           curSize := b.curSize - n } : RingBuffer T) := by
    refine ⟨?_, fun _ => Nat.mod_lt _ hpos, fun _ => ?_, fun _ => ⟨l, hl, hlen⟩⟩
    · show b.curSize - n ≤ b.total
      have := hI.size_le
      omega
    · show b.end_ = ((b.start + n) % b.total + (b.curSize - n)) % b.total
      rw [hI.end_eq hpos, Nat.mod_add_mod]
      congr 1
      omega
  refine ⟨_, pop_of_pos hpos (by omega), ⟨hI1, ?_, ?_⟩, rfl⟩
  · simp [hsz]
  · intro i v hv
    rw [List.getElem?_drop] at hv
    have hi : n + i < xs.length := (List.getElem?_eq_some_iff.mp hv).1
    have h1 := (at_of_inv hI hl (by omega) v).mp (hat _ v hv)
    rw [at_of_inv hI1 hl (by show i < b.curSize - n; omega)]
    show l[((b.start + n) % b.total + i) % b.total]? = some v
    rw [Nat.mod_add_mod, Nat.add_assoc]
    exact h1

theorem models_exists {b : RingBuffer T} (hI : Inv b) : ∃ xs, Models b xs := by
  by_cases hpos : 0 < b.total
  · obtain ⟨l, hl, hlen⟩ := hI.store hpos
    have key : ∀ k, k ≤ b.curSize →
        ∃ xs : List T, xs.length = k ∧
          ∀ i v, xs[i]? = some v → l[(b.start + i) % b.total]? = some v := by
      intro k
      induction k with
      | zero => intro _; exact ⟨[], rfl, by simp⟩
      | succ k ih =>
        intro hk
        obtain ⟨xs, rfl, hxs⟩ := ih (by omega)
        have hlt : (b.start + xs.length) % b.total < l.length := by
          rw [hlen]; exact Nat.mod_lt _ hpos
        refine ⟨xs ++ [l.get ⟨_, hlt⟩], by simp, ?_⟩
        intro i v hv
        by_cases hi : i < xs.length
        · rw [List.getElem?_append_left hi] at hv
          exact hxs i v hv
        · have hi2 : i < xs.length + 1 := by
            have := (List.getElem?_eq_some_iff.mp hv).1
            simpa using this
          have hik : i = xs.length := by omega
          subst hik
          simp at hv
          subst hv
          rw [List.getElem?_eq_getElem hlt]
    obtain ⟨xs, hxl, hxs⟩ := key b.curSize (Nat.le_refl _)
    refine ⟨xs, hI, hxl.symm, ?_⟩
    intro i v hv
    have hi : i < xs.length := (List.getElem?_eq_some_iff.mp hv).1
    exact (at_of_inv hI hl (by omega) v).mpr (hxs i v hv)
  · refine ⟨[], hI, ?_, by simp⟩
    have := hI.size_le
    simp
    omega

theorem models_at {b : RingBuffer T} {xs : List T} (hM : Models b xs) {i : Nat}
    (hi : i < xs.length) : at_ i b = .ok (xs.get ⟨i, hi⟩) :=
  hM.2.2 i _ (List.getElem?_eq_getElem hi)

theorem models_clear {b : RingBuffer T} (hI : Inv b) : Models (clear b) [] :=
  ⟨inv_clear hI, rfl, by simp⟩

theorem models_ctor_sized [Inhabited T] (n : Nat) : Models (ctor_sized n : RingBuffer T) [] :=
  ⟨inv_ctor_sized n, rfl, by simp⟩

theorem models_of_empty {b : RingBuffer T} (hI : Inv b) (h0 : b.curSize = 0) : Models b [] :=
  ⟨hI, by simpa using h0, by simp⟩

theorem at_assign_of_inv {b : RingBuffer T} {l : List T} {i : Nat} (hI : Inv b)
    (hl : b.pData = some l) (hi : i < b.curSize) (v : T) :
    at_assign i v b = .ok { b with pData := some (l.set ((b.start + i) % b.total) v) } := by
  have hpos : 0 < b.total := by have := hI.size_le; omega
  obtain ⟨l', hl', hlen⟩ := hI.store hpos
  rw [hl] at hl'; cases hl'
  have hlt : (b.start + i) % b.total < l.length := by
    rw [hlen]; exact Nat.mod_lt _ hpos
  simp only [at_assign, at_slot, writeSlot, hl]
  rw [if_neg (by omega), if_neg (by omega)]
  simp [hlt]

theorem inv_at_assign {b b1 : RingBuffer T} {i : Nat} {v : T} (hI : Inv b)
    (h : at_assign i v b = .ok b1) : Inv b1 := by
  by_cases hi : i < b.curSize
  · have hpos : 0 < b.total := by have := hI.size_le; omega
    obtain ⟨l, hl, hlen⟩ := hI.store hpos
    rw [at_assign_of_inv hI hl hi v] at h
    cases h
    exact ⟨hI.size_le, hI.start_lt, hI.end_eq, fun _ => ⟨_, rfl, by simp [hlen]⟩⟩
  · simp [at_assign, at_slot, Nat.not_lt.mp hi] at h

theorem inv_push {b b1 : RingBuffer T} {x : T} {r : Nat} (hI : Inv b)
    (h : push x b = .ok (r, b1)) : Inv b1 ∧ b1.total = b.total := by
  by_cases hlt : b.curSize < b.total
  · obtain ⟨xs, hM⟩ := models_exists hI
    have hlt2 : xs.length < b.total := by rw [← hM.2.1]; exact hlt
    obtain ⟨b2, h2, hM2, ht⟩ := models_push hM hlt2 x
    rw [h2] at h
    cases h
    exact ⟨hM2.1, ht⟩
  · rw [push_full (Nat.not_lt.mp hlt)] at h
    cases h
    exact ⟨hI, rfl⟩

theorem inv_push_rv {b b1 : RingBuffer T} {x : T} {r : Bool} (hI : Inv b)
    (h : push_rv x b = .ok (r, b1)) : Inv b1 ∧ b1.total = b.total := by
  rw [push_rv_eq_push] at h
  rcases hp : push x b with e | ⟨r2, b2⟩
  · simp [hp, Except.map] at h
  · simp only [hp, Except.map] at h
    cases h
    exact inv_push hI hp

theorem inv_pop {b b1 : RingBuffer T} {n : Nat} {r : Bool} (hI : Inv b)
    (h : pop n b = .ok (r, b1)) : Inv b1 ∧ b1.total = b.total := by
  by_cases hn : n ≤ b.curSize
  · by_cases hpos : 0 < b.total
    · obtain ⟨xs, hM⟩ := models_exists hI
      have hn2 : n ≤ xs.length := by rw [← hM.2.1]; exact hn
      obtain ⟨b2, h2, hM2, ht⟩ := models_pop hM hpos hn2
      rw [h2] at h
      cases h
      exact ⟨hM2.1, ht⟩
    · rw [pop_zero_capacity (by omega) hn] at h
      cases h
  · rw [pop_short (Nat.not_le.mp hn)] at h
    cases h
    exact ⟨hI, rfl⟩

theorem inv_push_n_loop {r : Nat} {b1 : RingBuffer T} :
    ∀ (xs : List T) (p : Int) (b : RingBuffer T), Inv b →
      push_n_loop xs p b = .ok (r, b1) → Inv b1 ∧ b1.total = b.total := by
  intro xs
  induction xs with
  | nil =>
    intro p b hI h
    simp only [push_n_loop] at h
    cases h
    exact ⟨hI, rfl⟩
  | cons x rest ih =>
    intro p b hI h
    simp only [push_n_loop] at h
    rcases hp : push x b with e | ⟨r2, b2⟩
    · simp [hp] at h
    · simp only [hp] at h
      obtain ⟨hI2, ht2⟩ := inv_push hI hp
      by_cases hr : r2 = 0
      · simp only [hr, if_true] at h
        cases h
        exact ⟨hI2, ht2⟩
      · simp only [hr, if_false] at h
        by_cases hm : p = INT_MAX
        · simp [hm] at h
        · simp only [hm, if_false] at h
          obtain ⟨hI3, ht3⟩ := ih _ _ hI2 h
          exact ⟨hI3, ht3.trans ht2⟩

theorem inv_push_n_ptr_loop {elems : List T} {r : Nat} {b1 : RingBuffer T} :
    ∀ (k p : Nat) (b : RingBuffer T), Inv b →
      push_n_ptr_loop elems k p b = .ok (r, b1) → Inv b1 ∧ b1.total = b.total := by
  intro k
  induction k with
  | zero =>
    intro p b hI h
    simp only [push_n_ptr_loop] at h
    cases h
    exact ⟨hI, rfl⟩
  | succ k ih =>
    intro p b hI h
    simp only [push_n_ptr_loop] at h
    rcases he : elems[p]? with _ | x
    · simp [he] at h
    · simp only [he] at h
      rcases hp : push x b with e | ⟨r2, b2⟩
      · simp [hp] at h
      · simp only [hp] at h
        obtain ⟨hI2, ht2⟩ := inv_push hI hp
        by_cases hr : r2 = 0
        · simp only [hr, if_true] at h
          cases h
          exact ⟨hI2, ht2⟩
        · simp only [hr, if_false] at h
          obtain ⟨hI3, ht3⟩ := ih _ _ hI2 h
          exact ⟨hI3, ht3.trans ht2⟩

theorem copy_loop_spec {ring : RingBuffer T} {xs : List T} (hM : Models ring xs) :
    ∀ (k i : Nat) (this : RingBuffer T), i + k = ring.curSize → Inv this →
      this.total = ring.total → this.curSize = ring.curSize → this.start = ring.start →
      this.end_ = ring.end_ →
      (∀ j v, j < i → xs[j]? = some v → at_ j this = .ok v) →
      ∃ c, copy_loop ring k i this = .ok c ∧ Models c xs ∧ c.total = ring.total ∧
        c.start = ring.start ∧ c.end_ = ring.end_ := by
  intro k
  induction k with
  | zero =>
    intro i this hik hI ht hc hs he hprev
    refine ⟨this, rfl, ⟨hI, hc.trans hM.2.1, ?_⟩, ht, hs, he⟩
    intro j v hv
    have hj : j < xs.length := (List.getElem?_eq_some_iff.mp hv).1
    exact hprev j v (by have := hM.2.1; omega) hv
  | succ k ih =>
    intro i this hik hI ht hc hs he hprev
    have hilt : i < xs.length := by have := hM.2.1; omega
    have hpos : 0 < this.total := by have := hM.1.size_le; omega
    obtain ⟨lt, hlt, hlen⟩ := hI.store hpos
    have hic : i < this.curSize := by omega
    have hstep : copy_loop ring (k + 1) i this =
        copy_loop ring k (i + 1)
          { this with pData := some (lt.set ((this.start + i) % this.total)
            (xs.get ⟨i, hilt⟩)) } := by
      simp only [copy_loop, models_at hM hilt, at_assign_of_inv hI hlt hic]
    rw [hstep]
    have hI1 : Inv ({ this with pData := some (lt.set ((this.start + i) % this.total)
        (xs.get ⟨i, hilt⟩)) } : RingBuffer T) :=
      ⟨hI.size_le, hI.start_lt, hI.end_eq, fun _ => ⟨_, rfl, by simp [hlen]⟩⟩
    refine ih (i + 1) _ (by omega) hI1 ht hc hs he ?_
    intro j v hj hv
    have hjc : j < this.curSize := by omega
    rw [at_of_inv hI1 rfl hjc]
    show (lt.set ((this.start + i) % this.total) (xs.get ⟨i, hilt⟩))[
      (this.start + j) % this.total]? = some v
    by_cases hji : j = i
    · subst hji
      rw [List.getElem?_eq_getElem hilt] at hv
      have hv2 : xs.get ⟨j, hilt⟩ = v := by simpa using hv
      rw [hv2, List.getElem?_set_self]
      rw [hlen]
      exact Nat.mod_lt _ hpos
    · have hne : (this.start + i) % this.total ≠ (this.start + j) % this.total := by
        intro heq
        have hsz := hI.size_le
        exact hji (mod_add_inj (by omega) (by omega) heq).symm
      rw [List.getElem?_set_ne hne]
      exact (at_of_inv hI hlt hjc v).mp (hprev j v (by omega) hv)

theorem ctor_copy_spec [Inhabited T] {ring : RingBuffer T} {xs : List T}
    (hM : Models ring xs) :
    ∃ c, ctor_copy ring = .ok c ∧ Models c xs ∧ c.total = ring.total ∧
      c.start = ring.start ∧ c.end_ = ring.end_ := by
  have hI := hM.1
  refine copy_loop_spec hM ring.curSize 0 _ (by simp) ?_ rfl rfl rfl rfl ?_
  · exact ⟨hI.size_le, hI.start_lt, hI.end_eq, fun _ => ⟨_, rfl, by simp⟩⟩
  · intro j v hj
    exact absurd hj (Nat.not_lt_zero _)

theorem assign_loop_other (ring : RingBuffer T) :
    ∀ (k i : Nat) (this : RingBuffer T),
      assign_loop (.other ring) k i this = copy_loop ring k i this := by
  intro k
  induction k with
  | zero => intro i this; rfl
  | succ k ih =>
    intro i this
    rcases hv : at_ i ring with e | v
    · simp [assign_loop, copy_loop, Arg.deref, hv]
    · rcases ha : at_assign i v this with e | this1
      · simp [assign_loop, copy_loop, Arg.deref, hv, ha]
      · simp only [assign_loop, copy_loop, Arg.deref, hv, ha]
        exact ih (i + 1) this1

theorem assign_copy_eq [Inhabited T] (this ring : RingBuffer T) :
    assign_copy this (.other ring) = ctor_copy ring :=
  assign_loop_other ring _ _ _

theorem ctor_move_fst (ring : RingBuffer T) : (ctor_move ring).1 = ring := rfl

theorem assign_move_fst (this ring : RingBuffer T) : (assign_move this ring).1 = ring := rfl

theorem push_rv_of_push {b b1 : RingBuffer T} {x : T} (h : push x b = .ok (1, b1)) :
    push_rv x b = .ok (true, b1) := by
  rw [push_rv_eq_push, h]
  rfl

theorem push_rv_of_push_zero {b b1 : RingBuffer T} {x : T} (h : push x b = .ok (0, b1)) :
    push_rv x b = .ok (false, b1) := by
  rw [push_rv_eq_push, h]
  rfl

theorem push_each_spec :
    ∀ (es : List T) (b : RingBuffer T) (ys : List T), Models b ys →
      ys.length + es.length ≤ b.total →
      ∃ b1, push_each es b = .ok (es.map (fun _ => 1), b1) ∧
        push_rv_each es b = .ok (es.map (fun _ => true), b1) ∧
        Models b1 (ys ++ es) ∧ b1.total = b.total := by
  intro es
  induction es with
  | nil =>
    intro b ys hM _
    exact ⟨b, rfl, rfl, by simpa using hM, rfl⟩
  | cons x rest ih =>
    intro b ys hM hlen
    have hlt : ys.length < b.total := by simp at hlen; omega
    obtain ⟨b1, hp, hM1, ht1⟩ := models_push hM hlt x
    have hlen1 : (ys ++ [x]).length + rest.length ≤ b1.total := by
      simp at hlen ⊢; omega
    obtain ⟨b2, hp2, hr2, hM2, ht2⟩ := ih b1 (ys ++ [x]) hM1 hlen1
    refine ⟨b2, ?_, ?_, ?_, ht2.trans ht1⟩
    · simp [push_each, hp, hp2]
    · simp [push_rv_each, push_rv_of_push hp, hr2]
    · simpa using hM2

theorem size_t_of_int_small {p : Nat} (hp : p ≤ 2147483647) : size_t_of_int (p : Int) = p := by
  unfold size_t_of_int
  omega

theorem push_n_loop_spec :
    ∀ (xs : List T) (p : Nat) (b : RingBuffer T) (ys : List T), Models b ys →
      p + min xs.length (b.total - ys.length) ≤ 2147483647 →
      ∃ b1, push_n_loop xs (p : Int) b = .ok (p + min xs.length (b.total - ys.length), b1) ∧
        Models b1 (ys ++ xs.take (b.total - ys.length)) ∧ b1.total = b.total := by
  intro xs
  induction xs with
  | nil =>
    intro p b ys hM hp
    refine ⟨b, ?_, by simpa using hM, rfl⟩
    simp only [push_n_loop, List.length_nil, Nat.zero_min, Nat.add_zero]
    rw [size_t_of_int_small (by omega)]
  | cons x rest ih =>
    intro p b ys hM hp
    by_cases hlt : ys.length < b.total
    · obtain ⟨b1, hpush, hM1, ht1⟩ := models_push hM hlt x
      have hne : ¬ ((p : Int) = INT_MAX) := by
        unfold INT_MAX
        simp only [List.length_cons] at hp
        omega
      have hp1 : (p + 1) + min rest.length (b1.total - (ys ++ [x]).length) ≤ 2147483647 := by
        simp only [List.length_cons, List.length_append, List.length_nil] at hp ⊢
        rw [ht1]
        omega
      obtain ⟨b2, hloop, hM2, ht2⟩ := ih (p + 1) b1 (ys ++ [x]) hM1 hp1
      refine ⟨b2, ?_, ?_, ht2.trans ht1⟩
      · simp only [push_n_loop, hpush]
        rw [if_neg (by decide), if_neg hne]
        have hcast : ((p : Int) + 1) = ((p + 1 : Nat) : Int) := by push_cast; rfl
        rw [hcast, hloop]
        simp only [List.length_cons, List.length_append, List.length_nil, ht1]
        congr 2
        omega
      · have hr : b.total - ys.length = (b1.total - (ys ++ [x]).length) + 1 := by
          simp only [List.length_append, List.length_cons, List.length_nil, ht1]
          omega
        rw [hr, List.take_succ_cons]
        simpa using hM2
    · have hfull : b.total ≤ b.curSize := by rw [hM.2.1]; omega
      refine ⟨b, ?_, ?_, rfl⟩
      · simp only [push_n_loop, push_full hfull, if_true]
        have h0 : b.total - ys.length = 0 := by omega
        rw [h0, Nat.min_zero, Nat.add_zero, size_t_of_int_small]
        rw [h0] at hp
        simp at hp
        exact hp
      · have h0 : b.total - ys.length = 0 := by omega
        rw [h0]
        simpa using hM

theorem push_n_loop_overflow :
    ∀ (xs : List T) (p : Nat) (b : RingBuffer T) (ys : List T), Models b ys →
      p ≤ 2147483647 → 2147483647 < p + min xs.length (b.total - ys.length) →
      push_n_loop xs (p : Int) b = .error .int_overflow := by
  intro xs
  induction xs with
  | nil =>
    intro p b ys _ hp hbig
    simp at hbig
    omega
  | cons x rest ih =>
    intro p b ys hM hp hbig
    by_cases hlt : ys.length < b.total
    · obtain ⟨b1, hpush, hM1, ht1⟩ := models_push hM hlt x
      simp only [push_n_loop, hpush]
      rw [if_neg (by decide)]
      by_cases hmax : p = 2147483647
      · rw [if_pos (by unfold INT_MAX; omega)]
      · rw [if_neg (by unfold INT_MAX; omega)]
        have hcast : ((p : Int) + 1) = ((p + 1 : Nat) : Int) := by push_cast; rfl
        rw [hcast]
        apply ih (p + 1) b1 (ys ++ [x]) hM1 (by omega)
        simp only [List.length_cons, List.length_append, List.length_nil, ht1] at hbig ⊢
        omega
    · have h0 : b.total - ys.length = 0 := by omega
      rw [h0] at hbig
      simp at hbig
      omega

theorem push_n_ptr_loop_spec (elems : List T) :
    ∀ (k p : Nat) (b : RingBuffer T) (ys : List T), Models b ys → p + k ≤ elems.length →
      ∃ b1, push_n_ptr_loop elems k p b = .ok (p + min k (b.total - ys.length), b1) ∧
        Models b1 (ys ++ ((elems.drop p).take k).take (b.total - ys.length)) ∧
        b1.total = b.total := by
  intro k
  induction k with
  | zero =>
    intro p b ys hM _
    exact ⟨b, by simp [push_n_ptr_loop], by simpa using hM, rfl⟩
  | succ k ih =>
    intro p b ys hM hp
    have hplt : p < elems.length := by omega
    have hget : elems[p]? = some (elems.get ⟨p, hplt⟩) := List.getElem?_eq_getElem hplt
    have hdrop : elems.drop p = elems.get ⟨p, hplt⟩ :: elems.drop (p + 1) := by
      simp
    by_cases hlt : ys.length < b.total
    · obtain ⟨b1, hpush, hM1, ht1⟩ := models_push hM hlt (elems.get ⟨p, hplt⟩)
      obtain ⟨b2, hloop, hM2, ht2⟩ := ih (p + 1) b1 (ys ++ [elems.get ⟨p, hplt⟩]) hM1 (by omega)
      refine ⟨b2, ?_, ?_, ht2.trans ht1⟩
      · simp only [push_n_ptr_loop, hget, hpush]
        rw [if_neg (by decide), hloop]
        simp only [List.length_cons, List.length_append, List.length_nil, ht1]
        congr 2
        omega
      · have hr : b.total - ys.length = (b1.total - (ys ++ [elems.get ⟨p, hplt⟩]).length) + 1 := by
          simp only [List.length_append, List.length_cons, List.length_nil, ht1]
          omega
        rw [hdrop, List.take_succ_cons, hr, List.take_succ_cons]
        simpa using hM2
    · have hfull : b.total ≤ b.curSize := by rw [hM.2.1]; omega
      have h0 : b.total - ys.length = 0 := by omega
      refine ⟨b, ?_, ?_, rfl⟩
      · simp only [push_n_ptr_loop, hget, push_full hfull, if_true]
        rw [h0, Nat.min_zero, Nat.add_zero]
      · rw [h0]
        simpa using hM

theorem contract_of_models {b b1 : RingBuffer T} {ys xs : List T} (hM : Models b ys)
    (hM1 : Models b1 (ys ++ xs.take (b.total - ys.length))) :
    size b1 = size b + min xs.length (remain b) ∧
    (∀ (j : Nat) (h : j < xs.length), j < remain b →
      at_ (size b + j) b1 = .ok (xs.get ⟨j, h⟩)) ∧
    (∀ i, i < size b → ∃ v, at_ i b = .ok v ∧ at_ i b1 = .ok v) := by
  have hsz : b.curSize = ys.length := hM.2.1
  have hsz1 : b1.curSize = (ys ++ xs.take (b.total - ys.length)).length := hM1.2.1
  refine ⟨?_, ?_, ?_⟩
  · show b1.curSize = b.curSize + min xs.length (b.total - b.curSize)
    rw [hsz1, hsz, List.length_append, List.length_take, Nat.min_comm]
  · intro j h hj
    have hj2 : j < b.total - ys.length := by
      have : j < b.total - b.curSize := hj
      rwa [hsz] at this
    apply hM1.2.2
    show (ys ++ xs.take (b.total - ys.length))[b.curSize + j]? = _
    rw [hsz, List.getElem?_append_right (Nat.le_add_right _ _), Nat.add_sub_cancel_left,
      List.getElem?_take_of_lt hj2, List.getElem?_eq_getElem h]
    rfl
  · intro i hi
    have hi2 : i < ys.length := by
      have : i < b.curSize := hi
      rwa [hsz] at this
    refine ⟨ys.get ⟨i, hi2⟩, models_at hM hi2, ?_⟩
    apply hM1.2.2
    rw [List.getElem?_append_left hi2, List.getElem?_eq_getElem hi2]
    rfl

theorem inv_exec {c : Call T} {b b1 : RingBuffer T} (hI : Inv b) (h : c.exec b = .ok b1) :
    Inv b1 ∧ b1.total = b.total := by
  cases c with
  | push x =>
    simp only [Call.exec] at h
    rcases hp : push x b with e | ⟨r, b2⟩
    · simp [hp, Except.map] at h
    · simp only [hp, Except.map] at h
      cases h
      exact inv_push hI hp
  | push_rv x =>
    simp only [Call.exec] at h
    rcases hp : push_rv x b with e | ⟨r, b2⟩
    · simp [hp, Except.map] at h
    · simp only [hp, Except.map] at h
      cases h
      exact inv_push_rv hI hp
  | pop n =>
    simp only [Call.exec] at h
    rcases hp : pop n b with e | ⟨r, b2⟩
    · simp [hp, Except.map] at h
    · simp only [hp, Except.map] at h
      cases h
      exact inv_pop hI hp
  | clear =>
    simp only [Call.exec] at h
    cases h
    exact ⟨inv_clear hI, rfl⟩

theorem inv_run :
    ∀ (calls : List (Call T)) (b b1 : RingBuffer T), Inv b → run calls b = .ok b1 →
      Inv b1 ∧ b1.total = b.total := by
  intro calls
  induction calls with
  | nil =>
    intro b b1 hI h
    simp only [run] at h
    cases h
    exact ⟨hI, rfl⟩
  | cons c cs ih =>
    intro b b1 hI h
    simp only [run] at h
    rcases hc : c.exec b with e | b2
    · simp [hc] at h
    · simp only [hc] at h
      obtain ⟨hI2, ht2⟩ := inv_exec hI hc
      obtain ⟨hI3, ht3⟩ := ih b2 b1 hI2 h
      exact ⟨hI3, ht3.trans ht2⟩

theorem exec_total_of_pos {b : RingBuffer T} (hI : Inv b) (hpos : 0 < b.total) (c : Call T) :
    ∃ b1, c.exec b = .ok b1 := by
  obtain ⟨xs, hM⟩ := models_exists hI
  have hsz : b.curSize = xs.length := hM.2.1
  cases c with
  | push x =>
    by_cases hlt : xs.length < b.total
    · obtain ⟨b1, hp, _⟩ := models_push hM hlt x
      exact ⟨b1, by simp [Call.exec, hp, Except.map]⟩
    · exact ⟨b, by simp [Call.exec, push_full (by omega : b.total ≤ b.curSize), Except.map]⟩
  | push_rv x =>
    by_cases hlt : xs.length < b.total
    · obtain ⟨b1, hp, _⟩ := models_push hM hlt x
      exact ⟨b1, by simp [Call.exec, push_rv_of_push hp, Except.map]⟩
    · have hp := push_full (by omega : b.total ≤ b.curSize) x
      exact ⟨b, by simp [Call.exec, push_rv_of_push_zero hp, Except.map]⟩
  | pop n =>
    by_cases hn : n ≤ b.curSize
    · refine ⟨{ b with start := (b.start + n) % b.total, curSize := b.curSize - n }, ?_⟩
      simp [Call.exec, pop_of_pos hpos hn, Except.map]
    · exact ⟨b, by simp [Call.exec, pop_short (Nat.not_le.mp hn), Except.map]⟩
  | clear => exact ⟨clear b, rfl⟩

theorem run_total_of_pos :
    ∀ (calls : List (Call T)) (b : RingBuffer T), Inv b → 0 < b.total →
      ∃ b1, run calls b = .ok b1 := by
  intro calls
  induction calls with
  | nil => intro b _ _; exact ⟨b, rfl⟩
  | cons c cs ih =>
    intro b hI hpos
    obtain ⟨b1, hc⟩ := exec_total_of_pos hI hpos c
    obtain ⟨hI1, ht1⟩ := inv_exec hI hc
    obtain ⟨b2, hr⟩ := ih b1 hI1 (by omega)
    exact ⟨b2, by simp [run, hc, hr]⟩

theorem size_remain_of_run [Inhabited T] (C : Nat) (calls : List (Call T)) :
    (∀ b, run calls (ctor_sized C) = .ok b → size b + remain b = C ∧ size b ≤ C) ∧
    (0 < C → ∃ b, run calls (ctor_sized C : RingBuffer T) = .ok b) := by
  constructor
  · intro b h
    obtain ⟨hI, ht⟩ := inv_run calls _ b (inv_ctor_sized C) h
    have hle := hI.size_le
    have htC : b.total = C := ht
    show b.curSize + (b.total - b.curSize) = C ∧ b.curSize ≤ C
    omega
  · intro hC
    exact run_total_of_pos calls _ (inv_ctor_sized C) hC

/-! ## Theorems: zero capacity, frames and bounds -/

theorem zero_capacity_empty {b : RingBuffer T} (hI : Inv b) (h0 : b.total = 0) :
    b.curSize = 0 := by
  have := hI.size_le
  omega

theorem push_n_zero_capacity {b : RingBuffer T} (hc : b.total ≤ b.curSize) (xs : List T) :
    push_n xs b = .ok (0, b) := by
  cases xs with
  | nil => rfl
  | cons x rest =>
    simp only [push_n, push_n_loop, push_full hc, if_true]
    rfl

theorem push_n_ptr_zero_capacity {b : RingBuffer T} (hc : b.total ≤ b.curSize)
    (xs : List T) : push_n_ptr xs xs.length b = .ok (0, b) := by
  cases xs with
  | nil => rfl
  | cons x rest =>
    simp [push_n_ptr, push_n_ptr_loop, push_full hc]

theorem pop_state {b b1 : RingBuffer T} {n : Nat} {r : Bool} (h : pop n b = .ok (r, b1)) :
    (r = false ∧ b1 = b ∧ b.curSize < n) ∨
    (r = true ∧ n ≤ b.curSize ∧ b.total ≠ 0 ∧
      b1 = { b with start := (b.start + n) % b.total, curSize := b.curSize - n }) := by
  by_cases hn : n ≤ b.curSize
  · by_cases h0 : b.total = 0
    · rw [pop_zero_capacity h0 hn] at h
      cases h
    · rw [pop_of_pos (Nat.pos_of_ne_zero h0) hn] at h
      cases h
      exact Or.inr ⟨rfl, hn, h0, rfl⟩
  · rw [pop_short (Nat.not_le.mp hn)] at h
    cases h
    exact Or.inl ⟨rfl, rfl, Nat.not_le.mp hn⟩

theorem pop_fault_iff {b : RingBuffer T} {n : Nat} {e : Fault} :
    pop n b = .error e ↔ e = .div_by_zero ∧ b.total = 0 ∧ n ≤ b.curSize := by
  by_cases hn : n ≤ b.curSize
  · by_cases h0 : b.total = 0
    · rw [pop_zero_capacity h0 hn]
      constructor
      · intro h
        cases h
        exact ⟨rfl, h0, hn⟩
      · rintro ⟨rfl, _, _⟩
        rfl
    · rw [pop_of_pos (Nat.pos_of_ne_zero h0) hn]
      constructor
      · intro h
        cases h
      · rintro ⟨_, h, _⟩
        exact absurd h h0
  · rw [pop_short (Nat.not_le.mp hn)]
    constructor
    · intro h
      cases h
    · rintro ⟨_, _, h⟩
      exact absurd h hn

/-! ## Theorems: the two `push_n` overloads -/

theorem push_n_ptr_loop_eq_in_order (elems : List T) :
    ∀ (k p : Nat) (b : RingBuffer T), p + k = elems.length →
      push_n_ptr_loop elems k p b = push_in_order (elems.drop p) p b := by
  intro k
  induction k with
  | zero =>
    intro p b hp
    have hd : elems.drop p = [] := List.drop_eq_nil_of_le (by omega)
    rw [hd]
    rfl
  | succ k ih =>
    intro p b hp
    have hplt : p < elems.length := by omega
    have hget : elems[p]? = some (elems.get ⟨p, hplt⟩) := List.getElem?_eq_getElem hplt
    have hdrop : elems.drop p = elems.get ⟨p, hplt⟩ :: elems.drop (p + 1) := by
      simp
    rw [hdrop]
    simp only [push_n_ptr_loop, push_in_order, hget]
    rcases hpush : push (elems.get ⟨p, hplt⟩) b with e | ⟨r, b1⟩
    · rfl
    · by_cases hr : r = 0
      · simp [hr]
      · simp only [hr, if_false]
        exact ih (p + 1) b1 (by omega)

theorem push_n_loop_eq_in_order :
    ∀ (xs : List T) (p : Nat) (b : RingBuffer T) (ys : List T), Models b ys →
      p + min xs.length (b.total - ys.length) ≤ 2147483647 →
      push_n_loop xs (p : Int) b = push_in_order xs p b := by
  intro xs
  induction xs with
  | nil =>
    intro p b ys _ hp
    simp only [push_n_loop, push_in_order]
    rw [size_t_of_int_small (by simpa using hp)]
  | cons x rest ih =>
    intro p b ys hM hp
    by_cases hlt : ys.length < b.total
    · obtain ⟨b1, hpush, hM1, ht1⟩ := models_push hM hlt x
      have hne : ¬ ((p : Int) = INT_MAX) := by
        unfold INT_MAX
        simp only [List.length_cons] at hp
        omega
      have hp1 : (p + 1) + min rest.length (b1.total - (ys ++ [x]).length) ≤ 2147483647 := by
        simp only [List.length_cons, List.length_append, List.length_nil] at hp ⊢
        rw [ht1]
        omega
      simp only [push_n_loop, push_in_order, hpush]
      rw [if_neg (by decide), if_neg hne, if_neg (by decide)]
      have hcast : ((p : Int) + 1) = ((p + 1 : Nat) : Int) := by push_cast; rfl
      rw [hcast]
      exact ih (p + 1) b1 (ys ++ [x]) hM1 hp1
    · have hfull : b.total ≤ b.curSize := by rw [hM.2.1]; omega
      have h0 : b.total - ys.length = 0 := by omega
      simp only [push_n_loop, push_in_order, push_full hfull, if_true]
      rw [size_t_of_int_small]
      rw [h0] at hp
      simp at hp
      exact hp

theorem push_n_ptr_eq_in_order (xs : List T) (b : RingBuffer T) :
    push_n_ptr xs xs.length b = push_in_order xs 0 b := by
  unfold push_n_ptr
  rw [push_n_ptr_loop_eq_in_order xs xs.length 0 b (by simp)]
  rfl

/-! ## Theorems: the cursor invariant -/

theorem push_state {b b1 : RingBuffer T} {x : T} {r : Nat} (h : push x b = .ok (r, b1)) :
    (r = 0 ∧ b1 = b ∧ b.total ≤ b.curSize) ∨
    (r = 1 ∧ b.curSize < b.total ∧ ∃ l, b.pData = some l ∧
      b1 = { b with pData := some (l.set b.end_ x),
                    end_ := (b.end_ + 1) % b.total,
                    curSize := b.curSize + 1 }) := by
  by_cases hlt : b.curSize < b.total
  · right
    have h1 : b.curSize + 1 ≤ b.total := hlt
    have h0 : b.total ≠ 0 := by omega
    rcases hp : b.pData with _ | l
    · simp [push, writeSlot, hp, hlt] at h
    · by_cases he : b.end_ < l.length
      · simp [push, writeSlot, end_add, hp, hlt, he, h1, h0, size_t_of_bool] at h
        obtain ⟨hr, hb⟩ := h
        exact ⟨hr.symm, hlt, l, rfl, hb.symm⟩
      · simp [push, writeSlot, hp, hlt, he] at h
  · left
    rw [push_full (Nat.not_lt.mp hlt)] at h
    cases h
    exact ⟨rfl, rfl, Nat.not_lt.mp hlt⟩

theorem cursor_push {b b1 : RingBuffer T} {x : T} {r : Nat} (hc : CursorInv b)
    (h : push x b = .ok (r, b1)) : CursorInv b1 ∧ b1.total = b.total := by
  rcases push_state h with ⟨_, rfl, _⟩ | ⟨_, _, l, _, rfl⟩
  · exact ⟨hc, rfl⟩
  · refine ⟨?_, rfl⟩
    show (b.end_ + 1) % b.total = (b.start + (b.curSize + 1)) % b.total
    unfold CursorInv at hc
    rw [hc, Nat.mod_add_mod, Nat.add_assoc]

theorem cursor_push_rv {b b1 : RingBuffer T} {x : T} {r : Bool} (hc : CursorInv b)
    (h : push_rv x b = .ok (r, b1)) : CursorInv b1 ∧ b1.total = b.total := by
  rw [push_rv_eq_push] at h
  rcases hp : push x b with e | ⟨r2, b2⟩
  · simp [hp, Except.map] at h
  · simp only [hp, Except.map] at h
    cases h
    exact cursor_push hc hp

theorem cursor_pop {b b1 : RingBuffer T} {n : Nat} {r : Bool} (hc : CursorInv b)
    (h : pop n b = .ok (r, b1)) : CursorInv b1 ∧ b1.total = b.total := by
  rcases pop_state h with ⟨_, rfl, _⟩ | ⟨_, hn, _, rfl⟩
  · exact ⟨hc, rfl⟩
  · refine ⟨?_, rfl⟩
    show b.end_ = ((b.start + n) % b.total + (b.curSize - n)) % b.total
    unfold CursorInv at hc
    rw [hc, Nat.mod_add_mod]
    congr 1
    omega

theorem cursor_push_n_loop {r : Nat} {b1 : RingBuffer T} :
    ∀ (xs : List T) (p : Int) (b : RingBuffer T), CursorInv b →
      push_n_loop xs p b = .ok (r, b1) → CursorInv b1 ∧ b1.total = b.total := by
  intro xs
  induction xs with
  | nil =>
    intro p b hc h
    simp only [push_n_loop] at h
    cases h
    exact ⟨hc, rfl⟩
  | cons x rest ih =>
    intro p b hc h
    simp only [push_n_loop] at h
    rcases hp : push x b with e | ⟨r2, b2⟩
    · simp [hp] at h
    · simp only [hp] at h
      obtain ⟨hc2, ht2⟩ := cursor_push hc hp
      by_cases hr : r2 = 0
      · simp only [hr, if_true] at h
        cases h
        exact ⟨hc2, ht2⟩
      · simp only [hr, if_false] at h
        by_cases hm : p = INT_MAX
        · simp [hm] at h
        · simp only [hm, if_false] at h
          obtain ⟨hc3, ht3⟩ := ih _ _ hc2 h
          exact ⟨hc3, ht3.trans ht2⟩

theorem cursor_push_n_ptr_loop {elems : List T} {r : Nat} {b1 : RingBuffer T} :
    ∀ (k p : Nat) (b : RingBuffer T), CursorInv b →
      push_n_ptr_loop elems k p b = .ok (r, b1) → CursorInv b1 ∧ b1.total = b.total := by
  intro k
  induction k with
  | zero =>
    intro p b hc h
    simp only [push_n_ptr_loop] at h
    cases h
    exact ⟨hc, rfl⟩
  | succ k ih =>
    intro p b hc h
    simp only [push_n_ptr_loop] at h
    rcases he : elems[p]? with _ | x
    · simp [he] at h
    · simp only [he] at h
      rcases hp : push x b with e | ⟨r2, b2⟩
      · simp [hp] at h
      · simp only [hp] at h
        obtain ⟨hc2, ht2⟩ := cursor_push hc hp
        by_cases hr : r2 = 0
        · simp only [hr, if_true] at h
          cases h
          exact ⟨hc2, ht2⟩
        · simp only [hr, if_false] at h
          obtain ⟨hc3, ht3⟩ := ih _ _ hc2 h
          exact ⟨hc3, ht3.trans ht2⟩

theorem at_assign_fields {b b1 : RingBuffer T} {i : Nat} {v : T}
    (h : at_assign i v b = .ok b1) :
    b1.total = b.total ∧ b1.curSize = b.curSize ∧ b1.start = b.start ∧ b1.end_ = b.end_ := by
  simp only [at_assign] at h
  rcases hs : at_slot i b with e | p
  · simp [hs] at h
  · simp only [hs, writeSlot] at h
    rcases hp : b.pData with _ | l
    · simp [hp] at h
    · simp only [hp] at h
      by_cases hlt : p < l.length
      · simp only [hlt, if_true] at h
        cases h
        exact ⟨rfl, rfl, rfl, rfl⟩
      · simp [hlt] at h

theorem copy_loop_fields {ring c : RingBuffer T} :
    ∀ (k i : Nat) (this : RingBuffer T), copy_loop ring k i this = .ok c →
      c.total = this.total ∧ c.curSize = this.curSize ∧ c.start = this.start ∧
      c.end_ = this.end_ := by
  intro k
  induction k with
  | zero =>
    intro i this h
    simp only [copy_loop] at h
    cases h
    exact ⟨rfl, rfl, rfl, rfl⟩
  | succ k ih =>
    intro i this h
    simp only [copy_loop] at h
    rcases hv : at_ i ring with e | v
    · simp [hv] at h
    · simp only [hv] at h
      rcases ha : at_assign i v this with e | this1
      · simp [ha] at h
      · simp only [ha] at h
        obtain ⟨h1, h2, h3, h4⟩ := ih _ _ h
        obtain ⟨g1, g2, g3, g4⟩ := at_assign_fields ha
        exact ⟨h1.trans g1, h2.trans g2, h3.trans g3, h4.trans g4⟩

theorem cursor_ctor_copy [Inhabited T] {ring c : RingBuffer T} (hc : CursorInv ring)
    (h : ctor_copy ring = .ok c) : CursorInv c ∧ c.total = ring.total := by
  obtain ⟨h1, h2, h3, h4⟩ := copy_loop_fields _ _ _ h
  refine ⟨?_, h1⟩
  unfold CursorInv at hc ⊢
  rw [h4, h3, h2, h1]
  exact hc

/-! ## Theorems: 64-bit index arithmetic -/

theorem add_size_t_of_lt {a b : Nat} (h : a + b < 18446744073709551616) :
    add_size_t a b = a + b := by
  unfold add_size_t SIZE_T_RANGE
  exact Nat.mod_eq_of_lt h

/-! ## Theorems: refinement of the bounded FIFO list -/

theorem contents_of_models {b : RingBuffer T} {xs : List T} (hM : Models b xs) :
    contents b = xs.map .ok := by
  have hsz : b.curSize = xs.length := hM.2.1
  apply List.ext_getElem?
  intro i
  by_cases hi : i < xs.length
  · have h1 : (contents b)[i]? = some (at_ i b) := by
      simp [contents, size, hsz, List.getElem?_map, List.getElem?_range hi]
    rw [h1, models_at hM hi, List.getElem?_map, List.getElem?_eq_getElem hi]
    rfl
  · have h1 : (contents b)[i]? = none := by
      apply List.getElem?_eq_none
      simp [contents, size, hsz]
      omega
    have h2 : (xs.map (Except.ok : T → Except Fault T))[i]? = none := by
      apply List.getElem?_eq_none
      simp
      omega
    rw [h1, h2]

theorem call_refines {b : RingBuffer T} {xs : List T} (hM : Models b xs)
    (hpos : 0 < b.total) (c : Call T) :
    ∃ b1, c.call b = .ok ((list_model_step b.total c xs).1, b1) ∧
      Models b1 (list_model_step b.total c xs).2 ∧ b1.total = b.total := by
  have hsz : b.curSize = xs.length := hM.2.1
  cases c with
  | push x =>
    by_cases hlt : xs.length < b.total
    · obtain ⟨b1, hp, hM1, ht⟩ := models_push hM hlt x
      exact ⟨b1, by simp [Call.call, hp, Except.map, list_model_step, hlt],
        by simpa [list_model_step, hlt] using hM1, ht⟩
    · have hp := push_full (by omega : b.total ≤ b.curSize) x
      exact ⟨b, by simp [Call.call, hp, Except.map, list_model_step, hlt],
        by simpa [list_model_step, hlt] using hM, rfl⟩
  | push_rv x =>
    by_cases hlt : xs.length < b.total
    · obtain ⟨b1, hp, hM1, ht⟩ := models_push hM hlt x
      exact ⟨b1, by simp [Call.call, push_rv_of_push hp, Except.map, list_model_step, hlt],
        by simpa [list_model_step, hlt] using hM1, ht⟩
    · have hp := push_full (by omega : b.total ≤ b.curSize) x
      exact ⟨b, by simp [Call.call, push_rv_of_push_zero hp, Except.map, list_model_step, hlt],
        by simpa [list_model_step, hlt] using hM, rfl⟩
  | pop n =>
    by_cases hn : n ≤ xs.length
    · obtain ⟨b1, hp, hM1, ht⟩ := models_pop hM hpos hn
      exact ⟨b1, by simp [Call.call, hp, Except.map, list_model_step, hn],
        by simpa [list_model_step, hn] using hM1, ht⟩
    · have hp : pop n b = .ok (false, b) := pop_short (by omega)
      exact ⟨b, by simp [Call.call, hp, Except.map, list_model_step, hn],
        by simpa [list_model_step, hn] using hM, rfl⟩
  | clear =>
    exact ⟨clear b, rfl, models_clear hM.1, rfl⟩

theorem trace_refines :
    ∀ (calls : List (Call T)) (b : RingBuffer T) (xs : List T), Models b xs →
      0 < b.total →
      trace calls b =
        .ok ((list_model_trace b.total calls xs).map (fun p => (p.1, p.2.map .ok))) := by
  intro calls
  induction calls with
  | nil => intro b xs _ _; rfl
  | cons c cs ih =>
    intro b xs hM hpos
    obtain ⟨b1, hc, hM1, ht⟩ := call_refines hM hpos c
    have hrec := ih b1 _ hM1 (by omega)
    simp only [trace, hc, hrec, list_model_trace, List.map_cons, contents_of_models hM1, ht]

theorem refines_list_model_of_pos [Inhabited T] (C : Nat) (hC : 0 < C)
    (calls : List (Call T)) :
    trace calls (ctor_sized C : RingBuffer T) =
      .ok ((list_model_trace C calls []).map (fun p => (p.1, p.2.map .ok))) :=
  trace_refines calls (ctor_sized C) [] (models_ctor_sized C) hC

/-! ## Theorems: stale slots are not observable -/

theorem same_logical_models {b1 b2 : RingBuffer T} (h : SameLogical b1 b2) :
    ∃ xs, Models b1 xs ∧ Models b2 xs ∧ b1.total = b2.total := by
  obtain ⟨hI1, hI2, ht, hs, hat⟩ := h
  obtain ⟨xs, hM⟩ := models_exists hI1
  have hsz : b1.curSize = xs.length := hM.2.1
  have hs2 : b1.curSize = b2.curSize := hs
  refine ⟨xs, hM, ⟨hI2, by omega, ?_⟩, ht⟩
  intro i v hv
  have hi : i < xs.length := (List.getElem?_eq_some_iff.mp hv).1
  rw [← hat i (by show i < b1.curSize; omega)]
  exact hM.2.2 i v hv

theorem push_n_ptr_loop_sim (elems : List T) :
    ∀ (k p : Nat) (b1 b2 : RingBuffer T) (xs : List T), Models b1 xs → Models b2 xs →
      b1.total = b2.total →
      (∃ e, push_n_ptr_loop elems k p b1 = .error e ∧
        push_n_ptr_loop elems k p b2 = .error e ∧ e ≠ .out_of_range) ∨
      (∃ r c1 c2 ys, push_n_ptr_loop elems k p b1 = .ok (r, c1) ∧
        push_n_ptr_loop elems k p b2 = .ok (r, c2) ∧ Models c1 ys ∧ Models c2 ys ∧
        c1.total = c2.total) := by
  intro k
  induction k with
  | zero =>
    intro p b1 b2 xs h1 h2 ht
    exact Or.inr ⟨p, b1, b2, xs, rfl, rfl, h1, h2, ht⟩
  | succ k ih =>
    intro p b1 b2 xs h1 h2 ht
    rcases he : elems[p]? with _ | x
    · left
      exact ⟨.out_of_bounds, by simp [push_n_ptr_loop, he], by simp [push_n_ptr_loop, he],
        by decide⟩
    · by_cases hlt : xs.length < b1.total
      · obtain ⟨c1, hp1, hM1, ht1⟩ := models_push h1 hlt x
        obtain ⟨c2, hp2, hM2, ht2⟩ := models_push h2 (by rw [← ht]; exact hlt) x
        have hrec := ih (p + 1) c1 c2 _ hM1 hM2 (by rw [ht1, ht2, ht])
        simp only [push_n_ptr_loop, he, hp1, hp2]
        rw [if_neg (by decide), if_neg (by decide)]
        exact hrec
      · have hf1 : b1.total ≤ b1.curSize := by rw [h1.2.1]; omega
        have hf2 : b2.total ≤ b2.curSize := by rw [h2.2.1, ← ht]; omega
        right
        refine ⟨p, b1, b2, xs, ?_, ?_, h1, h2, ht⟩
        · simp [push_n_ptr_loop, he, push_full hf1]
        · simp [push_n_ptr_loop, he, push_full hf2]

theorem step_sim {b1 b2 : RingBuffer T} {xs : List T} (h1 : Models b1 xs)
    (h2 : Models b2 xs) (ht : b1.total = b2.total) (c : Cmd T) :
    (c.step b1 = .error .out_of_range ∧ c.step b2 = .error .out_of_range) ∨
    (∃ e, c.step b1 = .error e ∧ c.step b2 = .error e ∧ e ≠ .out_of_range) ∨
    (∃ o c1 c2 ys, c.step b1 = .ok (o, c1) ∧ c.step b2 = .ok (o, c2) ∧
      Models c1 ys ∧ Models c2 ys ∧ c1.total = c2.total) := by
  have hs1 : b1.curSize = xs.length := h1.2.1
  have hs2 : b2.curSize = xs.length := h2.2.1
  cases c with
  | push x =>
    right; right
    by_cases hlt : xs.length < b1.total
    · obtain ⟨c1, hp1, hM1, ht1⟩ := models_push h1 hlt x
      obtain ⟨c2, hp2, hM2, ht2⟩ := models_push h2 (by rw [← ht]; exact hlt) x
      exact ⟨Out.count 1, c1, c2, _, by simp [Cmd.step, hp1, Except.map],
        by simp [Cmd.step, hp2, Except.map], hM1, hM2, by rw [ht1, ht2, ht]⟩
    · have hf1 := push_full (by omega : b1.total ≤ b1.curSize) x
      have hf2 := push_full (by omega : b2.total ≤ b2.curSize) x
      exact ⟨Out.count 0, b1, b2, xs, by simp [Cmd.step, hf1, Except.map],
        by simp [Cmd.step, hf2, Except.map], h1, h2, ht⟩
  | push_rv x =>
    right; right
    by_cases hlt : xs.length < b1.total
    · obtain ⟨c1, hp1, hM1, ht1⟩ := models_push h1 hlt x
      obtain ⟨c2, hp2, hM2, ht2⟩ := models_push h2 (by rw [← ht]; exact hlt) x
      exact ⟨Out.flag true, c1, c2, _, by simp [Cmd.step, push_rv_of_push hp1, Except.map],
        by simp [Cmd.step, push_rv_of_push hp2, Except.map], hM1, hM2, by rw [ht1, ht2, ht]⟩
    · have hf1 := push_full (by omega : b1.total ≤ b1.curSize) x
      have hf2 := push_full (by omega : b2.total ≤ b2.curSize) x
      exact ⟨Out.flag false, b1, b2, xs, by simp [Cmd.step, push_rv_of_push_zero hf1, Except.map],
        by simp [Cmd.step, push_rv_of_push_zero hf2, Except.map], h1, h2, ht⟩
  | push_n ys =>
    right
    have h0 : ((0 : Nat) : Int) = 0 := rfl
    by_cases hsmall : 0 + min ys.length (b1.total - xs.length) ≤ 2147483647
    · right
      obtain ⟨c1, hp1, hM1, ht1⟩ := push_n_loop_spec ys 0 b1 xs h1 hsmall
      obtain ⟨c2, hp2, hM2, ht2⟩ := push_n_loop_spec ys 0 b2 xs h2 (by rw [← ht]; exact hsmall)
      rw [h0] at hp1 hp2
      rw [← ht] at hp2 hM2
      exact ⟨Out.count (0 + min ys.length (b1.total - xs.length)), c1, c2, _,
        by simp [Cmd.step, RingBuffer.push_n, hp1, Except.map],
        by simp [Cmd.step, RingBuffer.push_n, hp2, Except.map], hM1, hM2,
        by rw [ht1, ht2, ht]⟩
    · left
      have hbig : 2147483647 < 0 + min ys.length (b1.total - xs.length) := by omega
      have ho1 := push_n_loop_overflow ys 0 b1 xs h1 (by omega) hbig
      have ho2 := push_n_loop_overflow ys 0 b2 xs h2 (by omega) (by rw [← ht]; exact hbig)
      rw [h0] at ho1 ho2
      exact ⟨.int_overflow, by simp [Cmd.step, RingBuffer.push_n, ho1, Except.map],
        by simp [Cmd.step, RingBuffer.push_n, ho2, Except.map], by decide⟩
  | push_n_ptr ys n =>
    right
    rcases push_n_ptr_loop_sim ys n 0 b1 b2 xs h1 h2 ht with
      ⟨e, he1, he2, hne⟩ | ⟨r, c1, c2, zs, hr1, hr2, hM1, hM2, htc⟩
    · left
      exact ⟨e, by simp [Cmd.step, RingBuffer.push_n_ptr, he1, Except.map],
        by simp [Cmd.step, RingBuffer.push_n_ptr, he2, Except.map], hne⟩
    · right
      exact ⟨Out.count r, c1, c2, zs, by simp [Cmd.step, RingBuffer.push_n_ptr, hr1, Except.map],
        by simp [Cmd.step, RingBuffer.push_n_ptr, hr2, Except.map], hM1, hM2, htc⟩
  | pop n =>
    right
    by_cases hn : n ≤ xs.length
    · by_cases hpos : 0 < b1.total
      · right
        obtain ⟨c1, hp1, hM1, ht1⟩ := models_pop h1 hpos hn
        obtain ⟨c2, hp2, hM2, ht2⟩ := models_pop h2 (by rw [← ht]; exact hpos) hn
        exact ⟨Out.flag true, c1, c2, _, by simp [Cmd.step, hp1, Except.map],
          by simp [Cmd.step, hp2, Except.map], hM1, hM2, by rw [ht1, ht2, ht]⟩
      · left
        have hz1 := pop_zero_capacity (by omega : b1.total = 0) (by omega : n ≤ b1.curSize)
        have hz2 := pop_zero_capacity (by omega : b2.total = 0) (by omega : n ≤ b2.curSize)
        exact ⟨.div_by_zero, by simp [Cmd.step, hz1, Except.map],
          by simp [Cmd.step, hz2, Except.map], by decide⟩
    · right
      have hq1 : pop n b1 = .ok (false, b1) := pop_short (by omega)
      have hq2 : pop n b2 = .ok (false, b2) := pop_short (by omega)
      exact ⟨Out.flag false, b1, b2, xs, by simp [Cmd.step, hq1, Except.map],
        by simp [Cmd.step, hq2, Except.map], h1, h2, ht⟩
  | clear =>
    right; right
    exact ⟨_, clear b1, clear b2, [], rfl, rfl, models_clear h1.1, models_clear h2.1, ht⟩
  | size =>
    right; right
    refine ⟨_, b1, b2, xs, rfl, ?_, h1, h2, ht⟩
    simp [Cmd.step, RingBuffer.size, hs1, hs2]
  | remain =>
    right; right
    refine ⟨_, b1, b2, xs, rfl, ?_, h1, h2, ht⟩
    simp [Cmd.step, RingBuffer.remain, hs1, hs2, ht]
  | at_ i =>
    by_cases hi : i < xs.length
    · right; right
      exact ⟨Out.elem (xs.get ⟨i, hi⟩), b1, b2, xs,
        by simp [Cmd.step, models_at h1 hi, Except.map],
        by simp [Cmd.step, models_at h2 hi, Except.map], h1, h2, ht⟩
    · left
      have ha1 : RingBuffer.at_ i b1 = .error .out_of_range := at_out_of_range (by omega)
      have ha2 : RingBuffer.at_ i b2 = .error .out_of_range := at_out_of_range (by omega)
      exact ⟨by simp [Cmd.step, ha1, Except.map], by simp [Cmd.step, ha2, Except.map]⟩
  | op_index i =>
    by_cases hi : i < xs.length
    · right; right
      exact ⟨Out.elem (xs.get ⟨i, hi⟩), b1, b2, xs,
        by simp [Cmd.step, RingBuffer.op_index, models_at h1 hi, Except.map],
        by simp [Cmd.step, RingBuffer.op_index, models_at h2 hi, Except.map], h1, h2, ht⟩
    · left
      have ha1 : RingBuffer.at_ i b1 = .error .out_of_range := at_out_of_range (by omega)
      have ha2 : RingBuffer.at_ i b2 = .error .out_of_range := at_out_of_range (by omega)
      exact ⟨by simp [Cmd.step, RingBuffer.op_index, ha1, Except.map],
        by simp [Cmd.step, RingBuffer.op_index, ha2, Except.map]⟩

theorem observe_sim :
    ∀ (cmds : List (Cmd T)) (b1 b2 : RingBuffer T) (xs : List T) (seen : List (Seen T)),
      Models b1 xs → Models b2 xs → b1.total = b2.total →
      observe cmds b1 = some seen → observe cmds b2 = some seen := by
  intro cmds
  induction cmds with
  | nil => intro b1 b2 xs seen _ _ _ h; exact h
  | cons c cs ih =>
    intro b1 b2 xs seen h1 h2 ht h
    rcases step_sim h1 h2 ht c with ⟨he1, he2⟩ | ⟨e, he1, he2, hne⟩ |
      ⟨o, c1, c2, ys, ho1, ho2, hM1, hM2, htc⟩
    · simp only [observe, he1, if_true, Option.map_eq_some'] at h
      obtain ⟨rest, hrest, hseen⟩ := h
      simp only [observe, he2, if_true, ih b1 b2 xs rest h1 h2 ht hrest, Option.map_some']
      rw [hseen]
    · simp [observe, he1, hne] at h
    · simp only [observe, ho1, Option.map_eq_some'] at h
      obtain ⟨rest, hrest, hseen⟩ := h
      simp only [observe, ho2, ih c1 c2 ys rest hM1 hM2 htc hrest, Option.map_some']
      rw [hseen]

/-- Whenever a sequence of calls stays within defined behaviour on one of two buffers
that agree on capacity, count and logical elements, it does so on the other, and the
caller sees the same values and exceptions on both, call by call. -/
theorem stale_slots_unobservable_of_defined (b1 b2 : RingBuffer T) (h : SameLogical b1 b2)
    (cmds : List (Cmd T)) (seen : List (Seen T)) (hdef : observe cmds b1 = some seen) :
    observe cmds b2 = some seen := by
  obtain ⟨xs, h1, h2, ht⟩ := same_logical_models h
  exact observe_sim cmds b1 b2 xs seen h1 h2 ht hdef

/-- Example: a buffer with its head at slot 1 and a popped 9 left in slot 0, and a buffer
with its head at slot 0, both holding 8, 0; the same values and exceptions are seen on
both. -/
theorem stale_slots_example :
    SameLogical ex_stale_a ex_stale_b ∧
    ∃ seen,
      observe [Cmd.at_ 0, Cmd.at_ 2, Cmd.pop 1, Cmd.push 5, Cmd.push_n [6, 7], Cmd.remain,
        Cmd.op_index 2, Cmd.size, Cmd.pop 4, Cmd.clear, Cmd.at_ 0] ex_stale_a = some seen ∧
      observe [Cmd.at_ 0, Cmd.at_ 2, Cmd.pop 1, Cmd.push 5, Cmd.push_n [6, 7], Cmd.remain,
        Cmd.op_index 2, Cmd.size, Cmd.pop 4, Cmd.clear, Cmd.at_ 0] ex_stale_b = some seen := by
  have hI1 : Inv ex_stale_a :=
    ⟨by decide, fun _ => by decide, fun _ => rfl, fun _ => ⟨_, rfl, rfl⟩⟩
  have hI2 : Inv ex_stale_b :=
    ⟨by decide, fun _ => by decide, fun _ => rfl, fun _ => ⟨_, rfl, rfl⟩⟩
  have hat : ∀ i, i < size ex_stale_a → at_ i ex_stale_a = at_ i ex_stale_b := by
    intro i hi
    have hi2 : i < 2 := hi
    interval_cases i <;> rfl
  have h : SameLogical ex_stale_a ex_stale_b := ⟨hI1, hI2, rfl, rfl, hat⟩
  have hdef : ∃ seen, observe [Cmd.at_ 0, Cmd.at_ 2, Cmd.pop 1, Cmd.push 5, Cmd.push_n [6, 7],
      Cmd.remain, Cmd.op_index 2, Cmd.size, Cmd.pop 4, Cmd.clear, Cmd.at_ 0] ex_stale_a =
      some seen := ⟨_, rfl⟩
  obtain ⟨seen, hs⟩ := hdef
  exact ⟨h, seen, hs, stale_slots_unobservable_of_defined _ _ h _ seen hs⟩

/-! ## Theorems: reachable states -/

theorem wf_of_inv {b : RingBuffer T} (hI : Inv b) : Wf b :=
  ⟨hI.size_le, hI.start_lt, hI.end_eq⟩

theorem inv_of_wf {b : RingBuffer T} (hW : Wf b) (hO : Owning b) : Inv b :=
  ⟨hW.size_le, hW.start_lt, hW.end_eq, hO⟩

theorem wf_of_fields {b c : RingBuffer T} (hW : Wf b) (ht : c.total = b.total)
    (hc : c.curSize = b.curSize) (hs : c.start = b.start) (he : c.end_ = b.end_) : Wf c := by
  refine ⟨?_, ?_, ?_⟩
  · rw [hc, ht]; exact hW.size_le
  · rw [hs, ht]; exact hW.start_lt
  · rw [he, hs, hc, ht]; exact hW.end_eq

theorem wf_push {b b1 : RingBuffer T} {x : T} {r : Nat} (hW : Wf b)
    (h : push x b = .ok (r, b1)) : Wf b1 := by
  rcases push_state h with ⟨_, rfl, _⟩ | ⟨_, hlt, l, _, rfl⟩
  · exact hW
  · have hpos : 0 < b.total := by omega
    refine ⟨hlt, hW.start_lt, fun _ => ?_⟩
    show (b.end_ + 1) % b.total = (b.start + (b.curSize + 1)) % b.total
    rw [hW.end_eq hpos, Nat.mod_add_mod, Nat.add_assoc]

theorem wf_push_rv {b b1 : RingBuffer T} {x : T} {r : Bool} (hW : Wf b)
    (h : push_rv x b = .ok (r, b1)) : Wf b1 := by
  rw [push_rv_eq_push] at h
  rcases hp : push x b with e | ⟨r2, b2⟩
  · simp [hp, Except.map] at h
  · simp only [hp, Except.map] at h
    cases h
    exact wf_push hW hp

theorem wf_pop {b b1 : RingBuffer T} {n : Nat} {r : Bool} (hW : Wf b)
    (h : pop n b = .ok (r, b1)) : Wf b1 := by
  rcases pop_state h with ⟨_, rfl, _⟩ | ⟨_, hn, h0, rfl⟩
  · exact hW
  · have hpos : 0 < b.total := Nat.pos_of_ne_zero h0
    refine ⟨?_, fun _ => Nat.mod_lt _ hpos, fun _ => ?_⟩
    · show b.curSize - n ≤ b.total
      have := hW.size_le
      omega
    · show b.end_ = ((b.start + n) % b.total + (b.curSize - n)) % b.total
      rw [hW.end_eq hpos, Nat.mod_add_mod]
      congr 1
      omega

theorem wf_push_n_loop {r : Nat} {b1 : RingBuffer T} :
    ∀ (xs : List T) (p : Int) (b : RingBuffer T), Wf b →
      push_n_loop xs p b = .ok (r, b1) → Wf b1 := by
  intro xs
  induction xs with
  | nil =>
    intro p b hW h
    simp only [push_n_loop] at h
    cases h
    exact hW
  | cons x rest ih =>
    intro p b hW h
    simp only [push_n_loop] at h
    rcases hp : push x b with e | ⟨r2, b2⟩
    · simp [hp] at h
    · simp only [hp] at h
      have hW2 := wf_push hW hp
      by_cases hr : r2 = 0
      · simp only [hr, if_true] at h
        cases h
        exact hW2
      · simp only [hr, if_false] at h
        by_cases hm : p = INT_MAX
        · simp [hm] at h
        · simp only [hm, if_false] at h
          exact ih _ _ hW2 h

theorem wf_push_n_ptr_loop {elems : List T} {r : Nat} {b1 : RingBuffer T} :
    ∀ (k p : Nat) (b : RingBuffer T), Wf b →
      push_n_ptr_loop elems k p b = .ok (r, b1) → Wf b1 := by
  intro k
  induction k with
  | zero =>
    intro p b hW h
    simp only [push_n_ptr_loop] at h
    cases h
    exact hW
  | succ k ih =>
    intro p b hW h
    simp only [push_n_ptr_loop] at h
    rcases he : elems[p]? with _ | x
    · simp [he] at h
    · simp only [he] at h
      rcases hp : push x b with e | ⟨r2, b2⟩
      · simp [hp] at h
      · simp only [hp] at h
        have hW2 := wf_push hW hp
        by_cases hr : r2 = 0
        · simp only [hr, if_true] at h
          cases h
          exact hW2
        · simp only [hr, if_false] at h
          exact ih _ _ hW2 h

theorem assign_loop_fields {ring : Arg T} {c : RingBuffer T} :
    ∀ (k i : Nat) (this : RingBuffer T), assign_loop ring k i this = .ok c →
      c.total = this.total ∧ c.curSize = this.curSize ∧ c.start = this.start ∧
      c.end_ = this.end_ := by
  intro k
  induction k with
  | zero =>
    intro i this h
    simp only [assign_loop] at h
    cases h
    exact ⟨rfl, rfl, rfl, rfl⟩
  | succ k ih =>
    intro i this h
    simp only [assign_loop] at h
    rcases hv : at_ i (ring.deref this) with e | v
    · simp [hv] at h
    · simp only [hv] at h
      rcases ha : at_assign i v this with e | this1
      · simp [ha] at h
      · simp only [ha] at h
        obtain ⟨h1, h2, h3, h4⟩ := ih _ _ h
        obtain ⟨g1, g2, g3, g4⟩ := at_assign_fields ha
        exact ⟨h1.trans g1, h2.trans g2, h3.trans g3, h4.trans g4⟩

theorem assign_self_fields [Inhabited T] {b c : RingBuffer T}
    (h : assign_copy b .self = .ok c) :
    c.total = b.total ∧ c.curSize = b.curSize ∧ c.start = b.start ∧ c.end_ = b.end_ := by
  obtain ⟨h1, h2, h3, h4⟩ := assign_loop_fields _ _ _ h
  exact ⟨h1, h2, h3, h4⟩

theorem ctor_copy_fields [Inhabited T] {ring c : RingBuffer T} (h : ctor_copy ring = .ok c) :
    c.total = ring.total ∧ c.curSize = ring.curSize ∧ c.start = ring.start ∧
    c.end_ = ring.end_ := by
  obtain ⟨h1, h2, h3, h4⟩ := copy_loop_fields _ _ _ h
  exact ⟨h1, h2, h3, h4⟩

theorem reachable_wf [Inhabited T] {b : RingBuffer T} (hR : Reachable b) : Wf b := by
  induction hR with
  | ctor_default => exact wf_of_inv inv_ctor_default
  | ctor_sized n => exact wf_of_inv (inv_ctor_sized n)
  | ctor_copy ring c _ h ih =>
    obtain ⟨h1, h2, h3, h4⟩ := ctor_copy_fields h
    exact wf_of_fields ih h1 h2 h3 h4
  | ctor_move ring _ ih => rw [ctor_move_fst]; exact ih
  | moved_by_ctor ring _ ih =>
    refine ⟨Nat.zero_le _, fun h => h, fun _ => ?_⟩
    show (0 : Nat) = (0 + 0) % ring.total
    simp
  | assign_copy this ring c _ h ih =>
    rw [assign_copy_eq] at h
    obtain ⟨h1, h2, h3, h4⟩ := ctor_copy_fields h
    exact wf_of_fields ih h1 h2 h3 h4
  | assign_self b c _ h ih =>
    obtain ⟨h1, h2, h3, h4⟩ := assign_self_fields h
    exact wf_of_fields ih h1 h2 h3 h4
  | assign_move this ring _ ih => rw [assign_move_fst]; exact ih
  | moved_by_assign this ring _ ih => exact wf_of_fields ih rfl rfl rfl rfl
  | push x b r b1 _ h ih => exact wf_push ih h
  | push_rv x b r b1 _ h ih => exact wf_push_rv ih h
  | push_n xs b r b1 _ h ih => exact wf_push_n_loop xs 0 b ih h
  | push_n_ptr xs n b r b1 _ h ih => exact wf_push_n_ptr_loop n 0 b ih h
  | pop n b r b1 _ h ih => exact wf_pop ih h
  | at_assign i v b b1 _ h ih =>
    obtain ⟨h1, h2, h3, h4⟩ := at_assign_fields h
    exact wf_of_fields ih h1 h2 h3 h4
  | clear b _ ih =>
    refine ⟨Nat.zero_le _, fun h => h, fun _ => ?_⟩
    show (0 : Nat) = (0 + 0) % b.total
    simp

theorem inv_of_owning [Inhabited T] {b : RingBuffer T} (hR : Reachable b) (hO : Owning b) :
    Inv b :=
  inv_of_wf (reachable_wf hR) hO

theorem owning_ctor_sized [Inhabited T] (n : Nat) : Owning (ctor_sized n : RingBuffer T) :=
  (inv_ctor_sized n).store

theorem owning_ctor_default : Owning (ctor_default : RingBuffer T) :=
  fun h => absurd h (Nat.lt_irrefl 0)

/-! ## Theorems: contracts on objects that own their array -/

theorem pop_contract_pos [Inhabited T] (b : RingBuffer T) (hR : Reachable b) (hO : Owning b) (n : Nat) :
    (size b < n → pop n b = .ok (false, b)) ∧
    (n ≤ size b → 0 < b.total →
      ∃ b1, pop n b = .ok (true, b1) ∧ size b1 = size b - n ∧ b1.total = b.total ∧
        ∀ i, i < size b - n → ∃ v, at_ (i + n) b = .ok v ∧ at_ i b1 = .ok v) := by
  refine ⟨fun h => pop_short h, fun hn hpos => ?_⟩
  obtain ⟨xs, hM⟩ := models_exists (inv_of_owning hR hO)
  have hsz : size b = xs.length := hM.2.1
  have hn2 : n ≤ xs.length := by omega
  obtain ⟨b1, hp, hM1, ht⟩ := models_pop hM hpos hn2
  refine ⟨b1, hp, ?_, ht, ?_⟩
  · have := hM1.2.1
    simp at this
    show b1.curSize = _
    omega
  · intro i hi
    have hin : i + n < xs.length := by omega
    refine ⟨xs.get ⟨i + n, hin⟩, models_at hM hin, ?_⟩
    apply hM1.2.2
    rw [List.getElem?_drop, Nat.add_comm n i, List.getElem?_eq_getElem hin]
    rfl

theorem push_n_ptr_contract [Inhabited T] (b : RingBuffer T) (hR : Reachable b) (hO : Owning b)
    (xs : List T) :
    ∃ b1, push_n_ptr xs xs.length b = .ok (min xs.length (remain b), b1) ∧
      size b1 = size b + min xs.length (remain b) ∧
      (∀ (j : Nat) (h : j < xs.length), j < remain b →
        at_ (size b + j) b1 = .ok (xs.get ⟨j, h⟩)) ∧
      (∀ i, i < size b → ∃ v, at_ i b = .ok v ∧ at_ i b1 = .ok v) := by
  obtain ⟨ys, hM⟩ := models_exists (inv_of_owning hR hO)
  obtain ⟨b1, hloop, hM1, _⟩ := push_n_ptr_loop_spec xs xs.length 0 b ys hM (by simp)
  have hsz : b.curSize = ys.length := hM.2.1
  refine ⟨b1, ?_, contract_of_models hM (by simpa using hM1)⟩
  unfold push_n_ptr
  rw [hloop]
  simp [remain, hsz]

theorem push_n_contract_of_le [Inhabited T] (b : RingBuffer T) (hR : Reachable b) (hO : Owning b)
    (xs : List T) (hsmall : min xs.length (remain b) ≤ 2147483647) :
    ∃ b1, push_n xs b = .ok (min xs.length (remain b), b1) ∧
      size b1 = size b + min xs.length (remain b) ∧
      (∀ (j : Nat) (h : j < xs.length), j < remain b →
        at_ (size b + j) b1 = .ok (xs.get ⟨j, h⟩)) ∧
      (∀ i, i < size b → ∃ v, at_ i b = .ok v ∧ at_ i b1 = .ok v) := by
  obtain ⟨ys, hM⟩ := models_exists (inv_of_owning hR hO)
  have hsz : b.curSize = ys.length := hM.2.1
  have hr : remain b = b.total - ys.length := by rw [← hsz]; rfl
  obtain ⟨b1, hloop, hM1, _⟩ := push_n_loop_spec xs 0 b ys hM (by rw [← hr]; omega)
  refine ⟨b1, ?_, contract_of_models hM hM1⟩
  unfold push_n
  have h0 : ((0 : Nat) : Int) = 0 := rfl
  rw [← h0, hloop, hr]
  simp

theorem push_n_overflow [Inhabited T] (b : RingBuffer T) (hR : Reachable b) (hO : Owning b)
    (xs : List T) (hbig : 2147483647 < min xs.length (remain b)) :
    push_n xs b = .error .int_overflow := by
  obtain ⟨ys, hM⟩ := models_exists (inv_of_owning hR hO)
  have hsz : b.curSize = ys.length := hM.2.1
  have hr : remain b = b.total - ys.length := by rw [← hsz]; rfl
  unfold push_n
  have h0 : ((0 : Nat) : Int) = 0 := rfl
  rw [← h0]
  exact push_n_loop_overflow xs 0 b ys hM (by omega) (by rw [← hr]; omega)

theorem push_returns [Inhabited T] {b : RingBuffer T} (hR : Reachable b) (hO : Owning b) (x : T) :
    ∃ r b1, push x b = .ok (r, b1) := by
  have hI := inv_of_owning hR hO
  by_cases hlt : b.curSize < b.total
  · obtain ⟨xs, hM⟩ := models_exists hI
    have hlt2 : xs.length < b.total := by rw [← hM.2.1]; exact hlt
    obtain ⟨b1, hp, _⟩ := models_push hM hlt2 x
    exact ⟨1, b1, hp⟩
  · exact ⟨0, b, push_full (Nat.not_lt.mp hlt) x⟩

theorem at_returns_or_throws [Inhabited T] {b : RingBuffer T} (hR : Reachable b) (hO : Owning b) (i : Nat) :
    (∃ v, at_ i b = .ok v) ∨ at_ i b = .error .out_of_range := by
  by_cases hi : i < b.curSize
  · obtain ⟨xs, hM⟩ := models_exists (inv_of_owning hR hO)
    have hi2 : i < xs.length := by rw [← hM.2.1]; exact hi
    exact Or.inl ⟨_, models_at hM hi2⟩
  · exact Or.inr (at_out_of_range (Nat.not_lt.mp hi))

theorem push_n_overloads_agree_of_le [Inhabited T] (b : RingBuffer T) (hR : Reachable b) (hO : Owning b)
    (xs : List T) (hsmall : min xs.length (remain b) ≤ 2147483647) :
    push_n xs b = push_n_ptr xs xs.length b ∧ push_n xs b = push_in_order xs 0 b := by
  obtain ⟨ys, hM⟩ := models_exists (inv_of_owning hR hO)
  have hsz : b.curSize = ys.length := hM.2.1
  have hr : remain b = b.total - ys.length := by rw [← hsz]; rfl
  have h1 : push_n xs b = push_in_order xs 0 b := by
    unfold push_n
    have h0 : ((0 : Nat) : Int) = 0 := rfl
    rw [← h0]
    exact push_n_loop_eq_in_order xs 0 b ys hM (by rw [← hr]; omega)
  exact ⟨by rw [h1, push_n_ptr_eq_in_order], h1⟩

theorem push_fault {b : RingBuffer T} {x : T} {e : Fault} (h : push x b = .error e) :
    e = .null_deref ∨ e = .out_of_bounds := by
  by_cases hlt : b.curSize < b.total
  · have h1 : b.curSize + 1 ≤ b.total := hlt
    have h0 : b.total ≠ 0 := by omega
    rcases hp : b.pData with _ | l
    · simp [push, writeSlot, hp, hlt] at h
      exact Or.inl h.symm
    · by_cases he : b.end_ < l.length
      · simp [push, writeSlot, end_add, hp, hlt, he, h1, h0] at h
      · simp [push, writeSlot, hp, hlt, he] at h
        exact Or.inr h.symm
  · rw [push_full (Nat.not_lt.mp hlt)] at h
    cases h

theorem at_fault {b : RingBuffer T} (hW : Wf b) {i : Nat} {e : Fault}
    (h : at_ i b = .error e) : e = .out_of_range ∨ e = .null_deref ∨ e = .out_of_bounds := by
  by_cases hi : i < b.curSize
  · have h0 : b.total ≠ 0 := by have := hW.size_le; omega
    have hge : ¬ i ≥ b.curSize := by omega
    rcases hp : b.pData with _ | l
    · simp [at_, at_slot, hp, hge, h0] at h
      exact Or.inr (Or.inl h.symm)
    · by_cases hr : (b.start + i) % b.total < l.length
      · simp [at_, at_slot, readSlot, hp, hge, h0, hr] at h
      · simp [at_, at_slot, hp, hge, h0, hr] at h
        exact Or.inr (Or.inr h.symm)
  · rw [at_out_of_range (Nat.not_lt.mp hi)] at h
    cases h
    exact Or.inl rfl

theorem modulo_by_zero_iff [Inhabited T] (b : RingBuffer T) (hR : Reachable b) (x : T)
    (i n : Nat) :
    push x b ≠ .error .div_by_zero ∧ push_rv x b ≠ .error .div_by_zero ∧
    at_ i b ≠ .error .div_by_zero ∧
    (pop n b = .error .div_by_zero ↔ b.total = 0 ∧ n = 0) := by
  have hW := reachable_wf hR
  have hpush : push x b ≠ .error .div_by_zero := by
    intro h
    rcases push_fault h with h1 | h1 <;> cases h1
  refine ⟨hpush, ?_, ?_, ?_⟩
  · rw [push_rv_eq_push]
    rcases hp : push x b with e | p
    · intro h
      simp only [Except.map] at h
      cases h
      exact hpush hp
    · intro h
      simp [Except.map] at h
  · intro h
    rcases at_fault hW h with h1 | h1 | h1 <;> cases h1
  · rw [pop_fault_iff]
    have hle := hW.size_le
    constructor
    · rintro ⟨_, h0, hn⟩
      exact ⟨h0, by omega⟩
    · rintro ⟨h0, rfl⟩
      exact ⟨rfl, h0, Nat.zero_le _⟩

/-- Contract of `push` on an object that owns its array: on a full buffer it returns false
and leaves every member as it was; otherwise it returns true, `size()` grows by one and
the capacity is unchanged. -/
theorem push_contract [Inhabited T] (b : RingBuffer T) (hR : Reachable b) (hO : Owning b) (x : T) :
    (size b = b.total →
      push x b = .ok (size_t_of_bool false, b) ∧ push_rv x b = .ok (false, b)) ∧
    (size b ≠ b.total →
      ∃ b1, push x b = .ok (size_t_of_bool true, b1) ∧ push_rv x b = .ok (true, b1) ∧
        size b1 = size b + 1 ∧ b1.total = b.total) := by
  have hI := inv_of_owning hR hO
  constructor
  · intro h
    have hp : push x b = .ok (0, b) := push_full (Nat.le_of_eq h.symm) x
    exact ⟨hp, push_rv_of_push_zero hp⟩
  · intro h
    obtain ⟨xs, hM⟩ := models_exists hI
    have hlt : xs.length < b.total := by
      have h1 := hI.size_le
      have h2 : b.curSize = xs.length := hM.2.1
      have h3 : b.curSize ≠ b.total := h
      omega
    obtain ⟨b1, hp, hM1, ht⟩ := models_push hM hlt x
    refine ⟨b1, hp, push_rv_of_push hp, ?_, ht⟩
    have h1 : b1.curSize = (xs ++ [x]).length := hM1.2.1
    have h2 : b.curSize = xs.length := hM.2.1
    simp at h1
    show b1.curSize = b.curSize + 1
    omega

/-- FIFO order on an object that owns its array and is empty: pushing a list no longer
than the capacity makes every push return true, and `at(i)` then reads its `i`-th
element. -/
theorem fifo_order [Inhabited T] (b : RingBuffer T) (hR : Reachable b) (hO : Owning b)
    (h0 : size b = 0) (es : List T) (hlen : es.length ≤ b.total) :
    ∃ b1, push_each es b = .ok (es.map (fun _ => size_t_of_bool true), b1) ∧
      push_rv_each es b = .ok (es.map (fun _ => true), b1) ∧
      size b1 = es.length ∧
      ∀ (i : Nat) (h : i < es.length), at_ i b1 = .ok (es.get ⟨i, h⟩) := by
  have hM := models_of_empty (inv_of_owning hR hO) h0
  obtain ⟨b1, hp, hr, hM1, _⟩ := push_each_spec es b [] hM (by simpa using hlen)
  simp only [List.nil_append] at hM1
  exact ⟨b1, hp, hr, hM1.2.1, fun i h => models_at hM1 h⟩

/-- Bounds of `at` and `operator[]` on an object that owns its array: `out_of_range`
exactly when `index >= size()`, otherwise the slot `(start + index) % total`. -/
theorem at_bounds [Inhabited T] (b : RingBuffer T) (hR : Reachable b) (hO : Owning b) (index : Nat) :
    (at_ index b = .error .out_of_range ↔ index ≥ size b) ∧
    (op_index index b = .error .out_of_range ↔ index ≥ size b) ∧
    (index < size b →
      ∃ l v, b.pData = some l ∧ l[(b.start + index) % b.total]? = some v ∧
        at_slot index b = .ok ((b.start + index) % b.total) ∧
        at_ index b = .ok v ∧ op_index index b = .ok v) := by
  have hI := inv_of_owning hR hO
  have hlt : index < size b →
      ∃ l v, b.pData = some l ∧ l[(b.start + index) % b.total]? = some v ∧
        at_slot index b = .ok ((b.start + index) % b.total) ∧
        at_ index b = .ok v ∧ op_index index b = .ok v := by
    intro hi
    have hi2 : index < b.curSize := hi
    have hpos : 0 < b.total := by have := hI.size_le; omega
    obtain ⟨l, hl, hlen⟩ := hI.store hpos
    have hb : (b.start + index) % b.total < l.length := by
      rw [hlen]; exact Nat.mod_lt _ hpos
    have hv : l[(b.start + index) % b.total]? = some (l.get ⟨_, hb⟩) :=
      List.getElem?_eq_getElem hb
    have hat := (at_of_inv hI hl hi2 _).mpr hv
    refine ⟨l, _, hl, hv, ?_, hat, hat⟩
    simp only [at_slot, hl]
    rw [if_neg (by omega), if_neg (by omega)]
    simp [hb]
  have hiff : at_ index b = .error .out_of_range ↔ index ≥ size b := by
    constructor
    · intro h
      by_contra hc
      obtain ⟨_, v, _, _, _, hat, _⟩ := hlt (Nat.not_le.mp hc)
      rw [hat] at h
      cases h
    · intro h
      exact at_out_of_range h
  exact ⟨hiff, hiff, hlt⟩

/-- Copy construction and copy assignment between two distinct objects, from a source
that owns its array: both yield the same buffer, with the source's capacity, `size()`
and `at(i)` for every `i < size()`. -/
theorem copy_distinct_objects [Inhabited T] (src : RingBuffer T) (hR : Reachable src)
    (hO : Owning src) (dst : RingBuffer T) :
    ∃ c, ctor_copy src = .ok c ∧ assign_copy dst (.other src) = .ok c ∧
      c.total = src.total ∧ size c = size src ∧
      ∀ i, i < size src → ∃ v, at_ i src = .ok v ∧ at_ i c = .ok v := by
  obtain ⟨xs, hM⟩ := models_exists (inv_of_owning hR hO)
  obtain ⟨c, hc, hMc, ht, _⟩ := ctor_copy_spec hM
  refine ⟨c, hc, by rw [assign_copy_eq, hc], ht, ?_, ?_⟩
  · show c.curSize = src.curSize
    rw [hMc.2.1, hM.2.1]
  · intro i hi
    have hi2 : i < xs.length := by
      have : i < src.curSize := hi
      rwa [hM.2.1] at this
    exact ⟨_, models_at hM hi2, models_at hMc hi2⟩

/-! ## Theorems: the claims -/

/-- C1, at an input where the code departs from it.  After
`RingBuffer<int> a(3); RingBuffer<int> b(std::move(a));` the source `a` is a buffer
reached through the move constructor with `size() == 0` and capacity 3, so the claim has
`a.push(1)` return true; the move constructor has taken its array and left `total` at 3,
and `push` stores through the null `pData`. -/
theorem C1_push_on_moved_from_object :
    (ctor_move (ctor_sized 3 : RingBuffer Nat)).2 = ex_moved_from ∧
    Reachable ex_moved_from ∧ size ex_moved_from ≠ ex_moved_from.total ∧
    push 1 ex_moved_from = .error .null_deref ∧
    push_rv 1 ex_moved_from = .error .null_deref :=
  have hR : Reachable ex_moved_from :=
    Reachable.moved_by_ctor (ctor_sized 3) (Reachable.ctor_sized 3)
  ⟨rfl, hR, by decide, rfl, rfl⟩

/-- C2, at the input where the code departs from it: on a zero-capacity buffer
(default-constructed or `RingBuffer(0)`) `size() < 0` is false, yet `pop(0)` does not
return true: `start_add` evaluates `(start + 0) % total` with `total == 0`. -/
theorem C2_pop_zero_on_zero_capacity :
    Reachable (ctor_default : RingBuffer Nat) ∧
    ¬ size (ctor_default : RingBuffer Nat) < 0 ∧
    pop 0 (ctor_default : RingBuffer Nat) = .error .div_by_zero ∧
    Reachable (ctor_sized 0 : RingBuffer Nat) ∧
    pop 0 (ctor_sized 0 : RingBuffer Nat) = .error .div_by_zero :=
  ⟨Reachable.ctor_default, by decide, rfl, Reachable.ctor_sized 0, rfl⟩

/-- C3, at an input where the code departs from it.  The source of a move construction
(`RingBuffer<int> a(3); RingBuffer<int> b(std::move(a));`) is a reachable buffer with
`size() == 0` and capacity 3, also after `a.clear()`; the claim has the push of a
one-element list return true, but the first push stores through the null `pData`. -/
theorem C3_first_push_on_moved_from_object :
    Reachable ex_moved_from ∧ size ex_moved_from = 0 ∧ [1].length ≤ ex_moved_from.total ∧
    push_each [1] ex_moved_from = .error .null_deref ∧
    push_rv_each [1] ex_moved_from = .error .null_deref ∧
    Reachable (clear ex_moved_from) ∧ size (clear ex_moved_from) = 0 ∧
    push_each [1] (clear ex_moved_from) = .error .null_deref :=
  have hR : Reachable ex_moved_from :=
    Reachable.moved_by_ctor (ctor_sized 3) (Reachable.ctor_sized 3)
  ⟨hR, rfl, by decide, rfl, rfl, Reachable.clear _ hR, rfl, rfl⟩

/-- C4, at an input where the code departs from it.  `RingBuffer<char> b(2147483648)` is
empty (`remain() == 2147483648`) and `xs` holds 2147483648 elements, so the claim gives
`push_n(xs) == 2147483648`.  The pointer overload returns that count; the vector overload
counts in an `int`, and its 2147483648-th successful push increments `pushed` at `INT_MAX`,
which is signed overflow. -/
theorem C4_push_n_vector_counter_overflows :
    Reachable (ctor_sized 2147483648 : RingBuffer Char) ∧
    remain (ctor_sized 2147483648 : RingBuffer Char) = 2147483648 ∧
    (List.replicate 2147483648 'a').length = 2147483648 ∧
    push_n (List.replicate 2147483648 'a') (ctor_sized 2147483648) = .error .int_overflow ∧
    ∃ b1, push_n_ptr (List.replicate 2147483648 'a') 2147483648 (ctor_sized 2147483648) =
      .ok (2147483648, b1) := by
  have hR : Reachable (ctor_sized 2147483648 : RingBuffer Char) := Reachable.ctor_sized _
  have hO : Owning (ctor_sized 2147483648 : RingBuffer Char) := owning_ctor_sized _
  have hrem : remain (ctor_sized 2147483648 : RingBuffer Char) = 2147483648 := rfl
  have hlen : (List.replicate 2147483648 'a').length = 2147483648 := List.length_replicate _ _
  refine ⟨hR, hrem, hlen, ?_, ?_⟩
  · apply push_n_overflow _ hR hO
    rw [hlen, hrem]
    decide
  · obtain ⟨b1, h, _⟩ := push_n_ptr_contract _ hR hO (List.replicate 2147483648 'a')
    rw [hlen, hrem] at h
    exact ⟨b1, h⟩

/-- C5, at an input where the code departs from it.  After `dest = std::move(src)` the
source is a reachable buffer with `size() == 1` whose array is gone; index 0 is below
`size()`, so the claim has `at(0)` raise nothing and return a slot, but `at(0)` and
`operator[]` pass the bounds check and subscript the null `pData`. -/
theorem C5_at_on_move_assigned_source :
    (assign_move (ctor_sized 3) ex_shifted).2 = ex_move_assigned ∧
    Reachable ex_move_assigned ∧ 0 < size ex_move_assigned ∧
    at_ 0 ex_move_assigned = .error .null_deref ∧
    op_index 0 ex_move_assigned = .error .null_deref ∧
    at_slot 0 ex_move_assigned = .error .null_deref :=
  have hR : Reachable ex_shifted :=
    Reachable.pop 1 _ true _
      (Reachable.push 8 _ 1 _
        (Reachable.push 7 (ctor_sized 3) 1 _ (Reachable.ctor_sized 3) (by rfl)) (by rfl))
      (by rfl)
  have hM : Reachable ex_move_assigned := Reachable.moved_by_assign (ctor_sized 3) ex_shifted hR
  ⟨rfl, hM, by decide, rfl, rfl, rfl⟩

/-- C6, at the input where the code departs from it: with capacity `C = 0` the call
sequence consisting of `pop(0)` does not complete, so no state with
`size() + remain() == C` follows the call; `start_add` evaluates `(start + 0) % total`
with `total == 0`.  The same happens after any earlier calls on that buffer. -/
theorem C6_pop_zero_breaks_run :
    run [Call.pop 0] (ctor_sized 0 : RingBuffer Nat) = .error .div_by_zero ∧
    run [Call.push 1, Call.pop 1, Call.pop 0] (ctor_sized 0 : RingBuffer Nat) =
      .error .div_by_zero ∧
    run [Call.pop 0] (ctor_default : RingBuffer Nat) = .error .div_by_zero :=
  ⟨by decide, by decide, by decide⟩

/-- C7. Wrap-around round trip on `RingBuffer(C)` with `C > 0` and `k < C`: the first `C`
pushes all return true, `pop(k)` returns true, the next `k` pushes all return true, and
then `size() == C` and `at(i)` is the element pushed at position `k + i`, so the buffer
holds the last `C` elements pushed.  Both overloads of `push` are covered.  The last
conjunct is the example of the specification: capacity 4, pushes of 1, 2, 3, 4 return
true, `push(5)` returns false, `pop()` returns true, `push(5)` returns true, and
`at(0..3)` reads 2, 3, 4, 5. -/
theorem C7_wraparound [Inhabited T] (C k : Nat) (xs : List T) (hC : 0 < C) (hk : k < C)
    (hlen : xs.length = C + k) :
    (∃ b1 b2 b3,
      push_each (xs.take C) (ctor_sized C) =
        .ok ((xs.take C).map (fun _ => size_t_of_bool true), b1) ∧
      push_rv_each (xs.take C) (ctor_sized C) = .ok ((xs.take C).map (fun _ => true), b1) ∧
      pop k b1 = .ok (true, b2) ∧
      push_each (xs.drop C) b2 = .ok ((xs.drop C).map (fun _ => size_t_of_bool true), b3) ∧
      push_rv_each (xs.drop C) b2 = .ok ((xs.drop C).map (fun _ => true), b3) ∧
      size b3 = C ∧
      ∀ (i : Nat) (h : i < C), at_ i b3 = .ok (xs.get ⟨k + i, by omega⟩)) ∧
    (∃ b1 b2 b3 : RingBuffer Nat,
      push_each [1, 2, 3, 4] (ctor_sized 4) = .ok ([1, 1, 1, 1], b1) ∧
      push 5 b1 = .ok (0, b1) ∧ pop 1 b1 = .ok (true, b2) ∧ push 5 b2 = .ok (1, b3) ∧
      [at_ 0 b3, at_ 1 b3, at_ 2 b3, at_ 3 b3] = [.ok 2, .ok 3, .ok 4, .ok 5]) := by
  constructor
  · have hM0 : Models (ctor_sized C : RingBuffer T) [] := models_ctor_sized C
    have hl1 : (xs.take C).length = C := by rw [List.length_take]; omega
    obtain ⟨b1, hp1, hr1, hM1, ht1⟩ := push_each_spec (xs.take C) _ [] hM0
      (by rw [hl1]; exact Nat.le_of_eq (by simp [ctor_sized]))
    have ht1C : b1.total = C := ht1
    simp only [List.nil_append] at hM1
    obtain ⟨b2, hpop, hM2, ht2⟩ := models_pop hM1 (by omega) (by omega : k ≤ (xs.take C).length)
    have hl2 : ((xs.take C).drop k).length + (xs.drop C).length ≤ b2.total := by
      rw [List.length_drop, List.length_drop, hl1, ht2, ht1C, hlen]
      omega
    obtain ⟨b3, hp3, hr3, hM3, _⟩ := push_each_spec (xs.drop C) b2 _ hM2 hl2
    have hlist : (xs.take C).drop k ++ xs.drop C = xs.drop k := by
      have h1 : xs.drop k = (xs.take C ++ xs.drop C).drop k := by rw [List.take_append_drop]
      rw [h1, List.drop_append_of_le_length (by omega)]
    rw [hlist] at hM3
    refine ⟨b1, b2, b3, hp1, hr1, hpop, hp3, hr3, ?_, ?_⟩
    · have := hM3.2.1
      rw [List.length_drop, hlen] at this
      show b3.curSize = C
      omega
    · intro i h
      apply hM3.2.2
      rw [List.getElem?_drop, List.getElem?_eq_getElem (by omega)]
      rfl
  · exact ⟨_, _, _, rfl, rfl, rfl, rfl, rfl⟩

/-- Instance of C7 on the example of the specification: capacity 4, one pop, the
sequence 1, 2, 3, 4, 5. -/
theorem C7_wraparound_witness :
    0 < 4 ∧ 1 < 4 ∧ [1, 2, 3, 4, 5].length = 4 + 1 ∧
    (∃ b1 b2 b3,
      push_each ([1, 2, 3, 4, 5].take 4) (ctor_sized 4) =
        .ok (([1, 2, 3, 4, 5].take 4).map (fun _ => size_t_of_bool true), b1) ∧
      push_rv_each ([1, 2, 3, 4, 5].take 4) (ctor_sized 4) =
        .ok (([1, 2, 3, 4, 5].take 4).map (fun _ => true), b1) ∧
      pop 1 b1 = .ok (true, b2) ∧
      push_each ([1, 2, 3, 4, 5].drop 4) b2 =
        .ok (([1, 2, 3, 4, 5].drop 4).map (fun _ => size_t_of_bool true), b3) ∧
      push_rv_each ([1, 2, 3, 4, 5].drop 4) b2 =
        .ok (([1, 2, 3, 4, 5].drop 4).map (fun _ => true), b3) ∧
      size b3 = 4 ∧
      ∀ (i : Nat) (h : i < 4), at_ i b3 = .ok ([1, 2, 3, 4, 5].get ⟨1 + i, by simp only [List.length_cons, List.length_nil]; omega⟩)) :=
  ⟨by decide, by decide, rfl,
    (C7_wraparound 4 1 [1, 2, 3, 4, 5] (by decide) (by decide) rfl).1⟩

/-- C8, at an input where the code departs from it.  On the buffer reached by
`RingBuffer(3)`, `push(7)`, `push(8)`, `pop()`, whose `at(0)` is 8, the self-assignment
`b = b` replaces the array by a fresh one before its loop reads `ring.at(i)`: the source
is not left unchanged, and `at(0)` is 0 afterwards. -/
theorem C8_self_assignment_loses_elements :
    Reachable ex_shifted ∧ at_ 0 ex_shifted = .ok 8 ∧
    assign_copy ex_shifted .self = .ok ex_self_assigned ∧
    size ex_self_assigned = size ex_shifted ∧
    at_ 0 ex_self_assigned = .ok 0 ∧ ex_self_assigned ≠ ex_shifted :=
  have hR : Reachable ex_shifted :=
    Reachable.pop 1 _ true _
      (Reachable.push 8 _ 1 _
        (Reachable.push 7 (ctor_sized 3) 1 _ (Reachable.ctor_sized 3) (by rfl)) (by rfl))
      (by rfl)
  ⟨hR, rfl, rfl, rfl, rfl, by decide⟩

/-- C9. Move construction from a reachable source gives the new object the source's
former capacity, `size()` and array, so every `at(i)` of the new object is what `at(i)`
of the source was; when the source is populated (it owns its array) each `at(i)` with
`i < size()` is an element.  The source is left with `size() == 0`, `start == 0`,
`end == 0`, no array, and its capacity value retained. -/
theorem C9_move_construct [Inhabited T] (src : RingBuffer T) (hR : Reachable src) :
    (ctor_move src).1.total = src.total ∧ size (ctor_move src).1 = size src ∧
    (∀ i, at_ i (ctor_move src).1 = at_ i src) ∧
    (Owning src →
      ∀ i, i < size src → ∃ v, at_ i src = .ok v ∧ at_ i (ctor_move src).1 = .ok v) ∧
    (ctor_move src).1.pData = src.pData ∧
    size (ctor_move src).2 = 0 ∧ (ctor_move src).2.start = 0 ∧ (ctor_move src).2.end_ = 0 ∧
    (ctor_move src).2.total = src.total ∧ (ctor_move src).2.pData = none := by
  refine ⟨rfl, rfl, fun i => by rw [ctor_move_fst], ?_, rfl, rfl, rfl, rfl, rfl, rfl⟩
  intro hO i hi
  obtain ⟨xs, hM⟩ := models_exists (inv_of_owning hR hO)
  have hi2 : i < xs.length := by
    have : i < src.curSize := hi
    rwa [hM.2.1] at this
  rw [ctor_move_fst]
  exact ⟨_, models_at hM hi2, models_at hM hi2⟩

/-- Instance of C9 on the populated buffer reached by `RingBuffer(3)`, `push(7)`,
`push(8)`, `pop()`. -/
theorem C9_move_construct_witness :
    Reachable ex_shifted ∧ Owning ex_shifted ∧
    (ctor_move ex_shifted).1.total = ex_shifted.total ∧
    size (ctor_move ex_shifted).1 = size ex_shifted ∧
    (∀ i, i < size ex_shifted →
      ∃ v, at_ i ex_shifted = .ok v ∧ at_ i (ctor_move ex_shifted).1 = .ok v) ∧
    (ctor_move ex_shifted).1.pData = ex_shifted.pData ∧
    size (ctor_move ex_shifted).2 = 0 ∧ (ctor_move ex_shifted).2.start = 0 ∧
    (ctor_move ex_shifted).2.end_ = 0 ∧
    (ctor_move ex_shifted).2.total = ex_shifted.total ∧
    (ctor_move ex_shifted).2.pData = none :=
  have hR : Reachable ex_shifted :=
    Reachable.pop 1 _ true _
      (Reachable.push 8 _ 1 _
        (Reachable.push 7 (ctor_sized 3) 1 _ (Reachable.ctor_sized 3) (by rfl)) (by rfl))
      (by rfl)
  have hO : Owning ex_shifted := fun _ => ⟨_, rfl, rfl⟩
  have h := C9_move_construct ex_shifted hR
  ⟨hR, hO, h.1, h.2.1, h.2.2.2.1 hO, h.2.2.2.2⟩

/-- C10, at an input where the code departs from it.  After `dest = std::move(src)` with
`src` reached by `RingBuffer(3)`, `push(7)`, `push(8)`, `pop()`, the destination holds the
source's former state, but the source keeps `curSize == 1`, `start == 1`, `end == 2`
while its array is gone, so `src.size() == 1` and `src.at(0)` subscripts `nullptr`.
The move constructor, on the same source, does reset the three members. -/
theorem C10_move_assign_keeps_source_cursors :
    Reachable ex_shifted ∧
    (assign_move (ctor_sized 3) ex_shifted).1 = ex_shifted ∧
    size (assign_move (ctor_sized 3) ex_shifted).2 = 1 ∧
    (assign_move (ctor_sized 3) ex_shifted).2.start = 1 ∧
    (assign_move (ctor_sized 3) ex_shifted).2.end_ = 2 ∧
    (assign_move (ctor_sized 3) ex_shifted).2.pData = none ∧
    at_ 0 (assign_move (ctor_sized 3) ex_shifted).2 = .error .null_deref ∧
    size (ctor_move ex_shifted).2 = 0 :=
  have hR : Reachable ex_shifted :=
    Reachable.pop 1 _ true _
      (Reachable.push 8 _ 1 _
        (Reachable.push 7 (ctor_sized 3) 1 _ (Reachable.ctor_sized 3) (by rfl)) (by rfl))
      (by rfl)
  ⟨hR, rfl, rfl, rfl, rfl, rfl, rfl, rfl⟩

/-- C11, as stated, fails at `n = 0`: on the default-constructed buffer (capacity 0)
`pop(0)` does not return false with the state unchanged. -/
theorem C11_pop_zero_counterexample :
    (ctor_default : RingBuffer Nat).total = 0 ∧
    size (ctor_default : RingBuffer Nat) = 0 ∧
    pop 0 (ctor_default : RingBuffer Nat) ≠ .ok (false, ctor_default) :=
  ⟨rfl, rfl, by decide⟩

/-- C11, amended. On every reachable zero-capacity buffer (default-constructed, built
with `n == 0`, or any state reached from those, moved-from objects included), `size() == 0` and `remain() == 0`,
every `push` returns false, every `pop(n)` with `n >= 1` returns false, both `push_n`
overloads return 0, and each of these calls leaves the state unchanged. -/
theorem C11_zero_capacity [Inhabited T] (b : RingBuffer T) (hR : Reachable b)
    (h0 : b.total = 0) (x : T) (xs : List T) :
    size b = 0 ∧ remain b = 0 ∧
    push x b = .ok (size_t_of_bool false, b) ∧ push_rv x b = .ok (false, b) ∧
    (∀ n, 1 ≤ n → pop n b = .ok (false, b)) ∧
    push_n xs b = .ok (0, b) ∧ push_n_ptr xs xs.length b = .ok (0, b) := by
  have hle := (reachable_wf hR).size_le
  have hc : b.curSize = 0 := by omega
  have hfull : b.total ≤ b.curSize := by omega
  have hp : push x b = .ok (0, b) := push_full hfull x
  refine ⟨hc, ?_, hp, push_rv_of_push_zero hp, ?_, push_n_zero_capacity hfull xs,
    push_n_ptr_zero_capacity hfull xs⟩
  · show b.total - b.curSize = 0
    omega
  · intro n hn
    exact pop_short (by omega)

/-- Instance of C11 on the default-constructed buffer. -/
theorem C11_zero_capacity_witness :
    Reachable (ctor_default : RingBuffer Nat) ∧ (ctor_default : RingBuffer Nat).total = 0 ∧
    size (ctor_default : RingBuffer Nat) = 0 ∧ remain (ctor_default : RingBuffer Nat) = 0 ∧
    push 7 (ctor_default : RingBuffer Nat) = .ok (size_t_of_bool false, ctor_default) ∧
    push_rv 7 (ctor_default : RingBuffer Nat) = .ok (false, ctor_default) ∧
    (∀ n, 1 ≤ n → pop n (ctor_default : RingBuffer Nat) = .ok (false, ctor_default)) ∧
    push_n [1, 2] (ctor_default : RingBuffer Nat) = .ok (0, ctor_default) ∧
    push_n_ptr [1, 2] [1, 2].length (ctor_default : RingBuffer Nat) = .ok (0, ctor_default) :=
  ⟨Reachable.ctor_default, rfl,
    C11_zero_capacity ctor_default Reachable.ctor_default rfl 7 [1, 2]⟩

/-- C12, at an input where the code departs from it.  On the empty
`RingBuffer<char> b(2147483648)` with 2147483648 elements to insert, the pointer overload
does what pushing one at a time does and returns 2147483648, while the vector overload
does not return that count: its `int` counter is incremented at `INT_MAX`. -/
theorem C12_push_n_overloads_differ :
    Reachable (ctor_sized 2147483648 : RingBuffer Char) ∧
    push_n_ptr (List.replicate 2147483648 'a') (List.replicate 2147483648 'a').length
        (ctor_sized 2147483648) =
      push_in_order (List.replicate 2147483648 'a') 0 (ctor_sized 2147483648) ∧
    (∃ b1, push_in_order (List.replicate 2147483648 'a') 0 (ctor_sized 2147483648) =
      .ok (2147483648, b1)) ∧
    push_n (List.replicate 2147483648 'a') (ctor_sized 2147483648) = .error .int_overflow ∧
    push_n (List.replicate 2147483648 'a') (ctor_sized 2147483648) ≠
      push_n_ptr (List.replicate 2147483648 'a') (List.replicate 2147483648 'a').length
        (ctor_sized 2147483648) := by
  have hR : Reachable (ctor_sized 2147483648 : RingBuffer Char) := Reachable.ctor_sized _
  have hO : Owning (ctor_sized 2147483648 : RingBuffer Char) := owning_ctor_sized _
  have hrem : remain (ctor_sized 2147483648 : RingBuffer Char) = 2147483648 := rfl
  have hlen : (List.replicate 2147483648 'a').length = 2147483648 := List.length_replicate _ _
  have hov : push_n (List.replicate 2147483648 'a') (ctor_sized 2147483648) =
      .error .int_overflow := by
    apply push_n_overflow _ hR hO
    rw [hlen, hrem]
    decide
  obtain ⟨b1, hptr, _⟩ := push_n_ptr_contract _ hR hO (List.replicate 2147483648 'a')
  have heq := push_n_ptr_eq_in_order (List.replicate 2147483648 'a')
    (ctor_sized 2147483648 : RingBuffer Char)
  refine ⟨hR, heq, ⟨b1, ?_⟩, hov, ?_⟩
  · rw [← heq, hptr, hlen, hrem]
    rfl
  · rw [hov, hptr]
    intro h
    cases h

/-- C13. `clear()` sets `start`, `end` and `curSize` to zero, so that `size() == 0`,
`remain()` is the capacity and `at(i)` (and `operator[]`) throws for every `i`; the
capacity and the whole backing array are left as they were.  This holds in every state,
reachable or not. -/
theorem C13_clear (b : RingBuffer T) :
    (clear b).start = 0 ∧ (clear b).end_ = 0 ∧ (clear b).curSize = 0 ∧
    size (clear b) = 0 ∧ remain (clear b) = b.total ∧
    (∀ i, at_ i (clear b) = .error .out_of_range) ∧
    (∀ i, op_index i (clear b) = .error .out_of_range) ∧
    (clear b).total = b.total ∧ (clear b).pData = b.pData :=
  ⟨rfl, rfl, rfl, rfl, rfl, fun i => at_out_of_range (Nat.zero_le i),
    fun i => at_out_of_range (Nat.zero_le i), rfl, rfl⟩

/-- C14. Cursor invariant `end == (start + curSize) % total` for capacity above zero:
it holds after sized construction, and from any state in which it holds it is preserved
by `push` (both overloads), `push_n` (both overloads), `pop(n)` whether it returns true
or false, `clear`, copy construction and copy assignment (self-assignment included), and
move construction, for the new object and for the reset source alike; the capacity stays
the same.  On a reachable state that owns its array `push`, `pop`, the pointer `push_n`
and the copy constructor all return. -/
theorem C14_cursor_invariant [Inhabited T] (C : Nat) (hC : 0 < C) (b : RingBuffer T)
    (hpos : 0 < b.total) (hc : CursorInv b) :
    (0 < (ctor_sized C : RingBuffer T).total ∧ CursorInv (ctor_sized C : RingBuffer T)) ∧
    (∀ x r b1, push x b = .ok (r, b1) → CursorInv b1 ∧ b1.total = b.total) ∧
    (∀ x r b1, push_rv x b = .ok (r, b1) → CursorInv b1 ∧ b1.total = b.total) ∧
    (∀ xs r b1, push_n xs b = .ok (r, b1) → CursorInv b1 ∧ b1.total = b.total) ∧
    (∀ xs n r b1, push_n_ptr xs n b = .ok (r, b1) → CursorInv b1 ∧ b1.total = b.total) ∧
    (∀ n r b1, pop n b = .ok (r, b1) → CursorInv b1 ∧ b1.total = b.total) ∧
    (CursorInv (clear b) ∧ (clear b).total = b.total) ∧
    (∀ c, ctor_copy b = .ok c → CursorInv c ∧ c.total = b.total) ∧
    ((∀ this c, assign_copy this (.other b) = .ok c → CursorInv c ∧ c.total = b.total) ∧
      (∀ c, assign_copy b .self = .ok c → CursorInv c ∧ c.total = b.total)) ∧
    (CursorInv (ctor_move b).1 ∧ (ctor_move b).1.total = b.total) ∧
    (CursorInv (ctor_move b).2 ∧ (ctor_move b).2.total = b.total) ∧
    (Reachable b → Owning b →
      (∀ x, ∃ r b1, push x b = .ok (r, b1)) ∧ (∀ n, ∃ r b1, pop n b = .ok (r, b1)) ∧
      (∀ xs, ∃ r b1, push_n_ptr xs xs.length b = .ok (r, b1)) ∧
      (∃ c, ctor_copy b = .ok c)) := by
  refine ⟨?_, ?_, ?_, ?_, ?_, ?_, ?_, ?_, ?_, ?_, ?_, ?_⟩
  · refine ⟨hC, ?_⟩
    show (0 : Nat) = (0 + 0) % C
    simp
  · exact fun x r b1 h => cursor_push hc h
  · exact fun x r b1 h => cursor_push_rv hc h
  · exact fun xs r b1 h => cursor_push_n_loop xs 0 b hc h
  · exact fun xs n r b1 h => cursor_push_n_ptr_loop n 0 b hc h
  · exact fun n r b1 h => cursor_pop hc h
  · refine ⟨?_, rfl⟩
    show (0 : Nat) = (0 + 0) % b.total
    simp
  · exact fun c h => cursor_ctor_copy hc h
  · constructor
    · intro this c h
      rw [assign_copy_eq] at h
      exact cursor_ctor_copy hc h
    · intro c h
      obtain ⟨h1, h2, h3, h4⟩ := assign_self_fields h
      refine ⟨?_, h1⟩
      unfold CursorInv at hc ⊢
      rw [h4, h3, h2, h1]
      exact hc
  · exact ⟨hc, rfl⟩
  · refine ⟨?_, rfl⟩
    show (0 : Nat) = (0 + 0) % b.total
    simp
  · intro hR hO
    refine ⟨fun x => push_returns hR hO x, fun n => ?_, fun xs => ?_, ?_⟩
    · by_cases hn : n ≤ b.curSize
      · exact ⟨_, _, pop_of_pos hpos hn⟩
      · exact ⟨_, _, pop_short (Nat.not_le.mp hn)⟩
    · obtain ⟨b1, h, _⟩ := push_n_ptr_contract b hR hO xs
      exact ⟨_, b1, h⟩
    · obtain ⟨ys, hM⟩ := models_exists (inv_of_owning hR hO)
      obtain ⟨c, h, _⟩ := ctor_copy_spec hM
      exact ⟨c, h⟩

/-- Instance of C14 with capacity 3, on the buffer reached by `RingBuffer(3)`,
`push(7)`, `push(8)`, `pop()`: `push(9)` returns and the invariant holds afterwards. -/
theorem C14_cursor_invariant_witness :
    0 < 3 ∧ 0 < ex_shifted.total ∧ CursorInv ex_shifted ∧
    (0 < (ctor_sized 3 : RingBuffer Nat).total ∧ CursorInv (ctor_sized 3 : RingBuffer Nat)) ∧
    (∃ r b1, push 9 ex_shifted = .ok (r, b1) ∧ CursorInv b1 ∧ b1.total = ex_shifted.total) ∧
    (CursorInv (ctor_move ex_shifted).2 ∧ (ctor_move ex_shifted).2.total = ex_shifted.total) :=
  have hc : CursorInv ex_shifted := by
    show 2 = (1 + 1) % 3
    rfl
  have h := C14_cursor_invariant 3 (by decide) ex_shifted (by decide) hc
  ⟨by decide, by decide, hc, h.1,
    ⟨1, _, by rfl, h.2.1 9 1 _ (by rfl)⟩, h.2.2.2.2.2.2.2.2.2.2.1⟩

/-- C15. Bounds invariant: in every reachable state (constructors, `push`, `push_n`,
`pop`, `clear`, copies, and also both sides of a move and writes through `at`),
`curSize <= total`, and whenever `total > 0` both `start < total` and `end < total`. -/
theorem C15_bounds [Inhabited T] (b : RingBuffer T) (hR : Reachable b) :
    size b ≤ b.total ∧ (0 < b.total → b.start < b.total ∧ b.end_ < b.total) := by
  have hI := reachable_wf hR
  refine ⟨hI.size_le, fun hpos => ⟨hI.start_lt hpos, ?_⟩⟩
  rw [hI.end_eq hpos]
  exact Nat.mod_lt _ hpos

/-- Instance of C15 on the buffer reached by `RingBuffer(3)`, `push(7)`, `push(8)`,
`pop()`. -/
theorem C15_bounds_witness :
    Reachable ex_shifted ∧ size ex_shifted ≤ ex_shifted.total ∧
    (0 < ex_shifted.total →
      ex_shifted.start < ex_shifted.total ∧ ex_shifted.end_ < ex_shifted.total) :=
  have hR : Reachable ex_shifted :=
    Reachable.pop 1 _ true _
      (Reachable.push 8 _ 1 _
        (Reachable.push 7 (ctor_sized 3) 1 _ (Reachable.ctor_sized 3) (by rfl)) (by rfl))
      (by rfl)
  ⟨hR, C15_bounds ex_shifted hR⟩

/-- C16, at an input where the code departs from it.  The default-constructed buffer
and `RingBuffer(0)` satisfy the representation invariant and agree on capacity, count
and every logical element, so the claim has `pop(0)` hand back the same value on both.
On both, `pop(0)` evaluates `(start + 0) % total` with `total == 0`: its behaviour is
undefined, no returned value is fixed, and the two runs need not agree. -/
theorem C16_zero_capacity_runs_undetermined :
    SameLogical (ctor_default : RingBuffer Nat) (ctor_sized 0) ∧
    Cmd.step (Cmd.pop 0) (ctor_default : RingBuffer Nat) = .error .div_by_zero ∧
    Cmd.step (Cmd.pop 0) (ctor_sized 0 : RingBuffer Nat) = .error .div_by_zero ∧
    observe [Cmd.pop 0] (ctor_default : RingBuffer Nat) = none ∧
    observe [Cmd.pop 0] (ctor_sized 0 : RingBuffer Nat) = none ∧
    ¬ ∃ seen, observe [Cmd.pop 0] (ctor_default : RingBuffer Nat) = some seen ∧
      observe [Cmd.pop 0] (ctor_sized 0 : RingBuffer Nat) = some seen :=
  have h : SameLogical (ctor_default : RingBuffer Nat) (ctor_sized 0) :=
    ⟨inv_ctor_default, inv_ctor_sized 0, rfl, rfl, fun i hi => absurd hi (Nat.not_lt_zero i)⟩
  ⟨h, rfl, rfl, rfl, rfl, fun ⟨_, h1, _⟩ => Option.noConfusion h1⟩

/-- C17. On every reachable buffer, whatever `pop(n)` returns (true or false) it leaves
the backing array, the capacity and `end` as they were: only `start` and `curSize` can
change, every slot reads as before, and on a buffer that owns its array each popped
value is still in the slot it occupied.  `pop(n)` returns in every case except `n == 0`
on a zero-capacity buffer. -/
theorem C17_pop_frame [Inhabited T] (b : RingBuffer T) (hR : Reachable b) (n : Nat) :
    (∀ r b1, pop n b = .ok (r, b1) →
      b1.pData = b.pData ∧ b1.total = b.total ∧ b1.end_ = b.end_ ∧
      (r = false → b1 = b) ∧
      (∀ p, readSlot b1 p = readSlot b p) ∧
      (Owning b → ∀ i, i < n → n ≤ size b →
        ∃ v, at_ i b = .ok v ∧ readSlot b1 ((b.start + i) % b.total) = .ok v)) ∧
    ((0 < b.total ∨ 0 < n) → ∃ r b1, pop n b = .ok (r, b1)) := by
  have hW := reachable_wf hR
  constructor
  · intro r b1 h
    have hframe : b1.pData = b.pData ∧ b1.total = b.total ∧ b1.end_ = b.end_ := by
      rcases pop_state h with ⟨_, rfl, _⟩ | ⟨_, _, _, rfl⟩
      · exact ⟨rfl, rfl, rfl⟩
      · exact ⟨rfl, rfl, rfl⟩
    refine ⟨hframe.1, hframe.2.1, hframe.2.2, ?_, ?_, ?_⟩
    · intro hr
      rcases pop_state h with ⟨_, hb, _⟩ | ⟨hr2, _, _, _⟩
      · exact hb
      · rw [hr] at hr2
        cases hr2
    · intro p
      simp only [readSlot, hframe.1]
    · intro hO i hi hn
      have hI := inv_of_wf hW hO
      have hic : i < b.curSize := Nat.lt_of_lt_of_le hi hn
      have hpos : 0 < b.total := by have := hI.size_le; omega
      obtain ⟨l, hl, hlen⟩ := hI.store hpos
      have hb : (b.start + i) % b.total < l.length := by
        rw [hlen]; exact Nat.mod_lt _ hpos
      have hv : l[(b.start + i) % b.total]? = some (l.get ⟨_, hb⟩) :=
        List.getElem?_eq_getElem hb
      refine ⟨_, (at_of_inv hI hl hic _).mpr hv, ?_⟩
      simp only [readSlot, hframe.1, hl, hv]
  · intro h
    by_cases hn : n ≤ b.curSize
    · have hpos : 0 < b.total := by
        rcases h with h | h
        · exact h
        · have := hW.size_le
          omega
      exact ⟨_, _, pop_of_pos hpos hn⟩
    · exact ⟨_, _, pop_short (Nat.not_le.mp hn)⟩

/-- Instance of C17: `pop(1)` on the buffer reached by `RingBuffer(4)` and `push(7)`
returns and leaves 7 in slot 0. -/
theorem C17_pop_frame_witness :
    Reachable ex_one ∧ Owning ex_one ∧ (0 < ex_one.total ∨ 0 < 1) ∧
    (∃ r b1, pop 1 ex_one = .ok (r, b1)) ∧
    (∀ r b1, pop 1 ex_one = .ok (r, b1) →
      b1.pData = ex_one.pData ∧ b1.total = ex_one.total ∧ b1.end_ = ex_one.end_ ∧
      (r = false → b1 = ex_one) ∧
      (∀ p, readSlot b1 p = readSlot ex_one p) ∧
      ∀ i, i < 1 → 1 ≤ size ex_one →
        ∃ v, at_ i ex_one = .ok v ∧
          readSlot b1 ((ex_one.start + i) % ex_one.total) = .ok v) :=
  have hR : Reachable ex_one :=
    Reachable.push 7 (ctor_sized 4) 1 _ (Reachable.ctor_sized 4) (by rfl)
  have hO : Owning ex_one := fun _ => ⟨_, rfl, rfl⟩
  ⟨hR, hO, Or.inl (by decide), (C17_pop_frame ex_one hR 1).2 (Or.inl (by decide)),
    fun r b1 h =>
      have g := (C17_pop_frame ex_one hR 1).1 r b1 h
      ⟨g.1, g.2.1, g.2.2.1, g.2.2.2.1, g.2.2.2.2.1, g.2.2.2.2.2 hO⟩⟩

/-- C18, at the input where the code departs from it: on the default-constructed
buffer, and on `RingBuffer(0)` after `push(1)` and `clear()`, the call `pop(0)` passes
both guards `curSize >= n` and reaches `(start + n) % total` with `total == 0`. -/
theorem C18_pop_reaches_modulo_by_zero :
    Reachable (ctor_default : RingBuffer Nat) ∧
    (ctor_default : RingBuffer Nat).total = 0 ∧
    start_add 0 (ctor_default : RingBuffer Nat) = .error .div_by_zero ∧
    pop 0 (ctor_default : RingBuffer Nat) = .error .div_by_zero ∧
    run [Call.push 1, Call.clear] (ctor_sized 0 : RingBuffer Nat) = .ok (ctor_sized 0) ∧
    pop 0 (ctor_sized 0 : RingBuffer Nat) = .error .div_by_zero :=
  ⟨Reachable.ctor_default, rfl, rfl, rfl, by decide, rfl⟩

/-- C19, at the input where the code departs from it: with capacity `C = 0` and the
single call `pop(0)`, the list model returns true and leaves the empty list (`0 <= 0`),
while the buffer returns nothing: `start_add` evaluates `(start + 0) % total` with
`total == 0`.  The same happens after a `push` and a `clear`. -/
theorem C19_refinement_breaks_at_zero_capacity :
    list_model_trace 0 [Call.pop 0] ([] : List Nat) = [(some true, [])] ∧
    trace [Call.pop 0] (ctor_sized 0 : RingBuffer Nat) = .error .div_by_zero ∧
    list_model_trace 0 [Call.push 1, Call.clear, Call.pop 0] ([] : List Nat) =
      [(some false, []), (none, []), (some true, [])] ∧
    trace [Call.push 1, Call.clear, Call.pop 0] (ctor_sized 0 : RingBuffer Nat) =
      .error .div_by_zero :=
  ⟨by decide, by decide, by decide, by decide⟩

/-- C20. With `std::size_t` sums computed modulo `2^64`, in every state whose members
are `std::size_t` values, that satisfies the bounds invariant and whose capacity is at
most `2^63`, no index sum wraps: `curSize + 1` and `end + 1` in a push with
`size() < total`, `start + n` in `pop(n)` with `n <= size()`, and `start + index` in
`at(index)` with `index < size()` are below `2^64`; so the cursor the machine computes
is `(cursor + offset) % total`, and the 64-bit `end_add`, `start_add` and `at` agree
with the ones over the natural numbers. -/
theorem C20_no_wrap (b : RingBuffer T) (hfit : FitsSizeT b) (hle : size b ≤ b.total)
    (hcur : 0 < b.total → b.start < b.total ∧ b.end_ < b.total)
    (hcap : b.total ≤ 9223372036854775808) :
    (size b < b.total →
      b.curSize + 1 < SIZE_T_RANGE ∧ b.end_ + 1 < SIZE_T_RANGE ∧
      add_size_t b.end_ 1 % b.total = (b.end_ + 1) % b.total ∧
      end_add_64 1 b = end_add 1 b) ∧
    (∀ n, n ≤ size b →
      b.start + n < SIZE_T_RANGE ∧
      add_size_t b.start n % b.total = (b.start + n) % b.total ∧
      start_add_64 n b = start_add n b) ∧
    (∀ index, index < size b →
      b.start + index < SIZE_T_RANGE ∧
      add_size_t b.start index % b.total = (b.start + index) % b.total ∧
      at_slot_64 index b = at_slot index b) := by
  have hle2 : b.curSize ≤ b.total := hle
  obtain ⟨_, _, hs, _⟩ := hfit
  unfold SIZE_T_RANGE at hs ⊢
  refine ⟨?_, ?_, ?_⟩
  · intro hlt
    have hlt2 : b.curSize < b.total := hlt
    obtain ⟨_, he⟩ := hcur (by omega)
    have h1 : b.curSize + 1 < 18446744073709551616 := by omega
    have h2 : b.end_ + 1 < 18446744073709551616 := by omega
    refine ⟨h1, h2, by rw [add_size_t_of_lt h2], ?_⟩
    simp only [end_add_64, end_add, add_size_t_of_lt h1, add_size_t_of_lt h2]
  · intro n hn
    have hn2 : n ≤ b.curSize := hn
    have h1 : b.start + n < 18446744073709551616 := by
      by_cases hpos : 0 < b.total
      · obtain ⟨hst, _⟩ := hcur hpos
        omega
      · omega
    refine ⟨h1, by rw [add_size_t_of_lt h1], ?_⟩
    simp only [start_add_64, start_add, add_size_t_of_lt h1]
  · intro index hi
    have hi2 : index < b.curSize := hi
    obtain ⟨hst, _⟩ := hcur (by omega)
    have h1 : b.start + index < 18446744073709551616 := by omega
    refine ⟨h1, by rw [add_size_t_of_lt h1], ?_⟩
    simp only [at_slot_64, at_slot, add_size_t_of_lt h1]

/-- Instance of C20 at the bound: capacity `2^63`, full, head on the last slot; the sum
`start + n` for `n = 2^63` is `2^64 - 1`. -/
theorem C20_no_wrap_witness :
    FitsSizeT ex_huge ∧ size ex_huge ≤ ex_huge.total ∧
    (0 < ex_huge.total → ex_huge.start < ex_huge.total ∧ ex_huge.end_ < ex_huge.total) ∧
    ex_huge.total ≤ 9223372036854775808 ∧
    (∀ n, n ≤ size ex_huge →
      ex_huge.start + n < SIZE_T_RANGE ∧
      add_size_t ex_huge.start n % ex_huge.total = (ex_huge.start + n) % ex_huge.total ∧
      start_add_64 n ex_huge = start_add n ex_huge) :=
  have hfit : FitsSizeT ex_huge := by
    unfold FitsSizeT SIZE_T_RANGE ex_huge
    decide
  have hle : size ex_huge ≤ ex_huge.total := Nat.le_refl _
  have hcur : 0 < ex_huge.total → ex_huge.start < ex_huge.total ∧
      ex_huge.end_ < ex_huge.total := fun _ => by
    unfold ex_huge
    decide
  have hcap : ex_huge.total ≤ 9223372036854775808 := Nat.le_refl _
  ⟨hfit, hle, hcur, hcap, (C20_no_wrap ex_huge hfit hle hcur hcap).2.1⟩

end RingBuffer

end RingBuf
